import Mathlib

/-!
# Verification of `drf_multifield_cursor/pagination.py`

A shallow embedding of the multi-field cursor pagination engine:
the cursor codec (`encode_cursor` / `decode_cursor`, including the
base64 / urlencode / percent-encoding pipeline), the ordering resolver
(`get_ordering`, `_reverse_ordering`), the boundary-predicate builder
(disjunctive per-field expansion and the tuple-comparison optimization),
and the page windower (`paginate_queryset`'s slicing logic).

Python strings are modelled as lists of unicode scalar values
(`List Char`); bytes as `Nat` (each `< 256` where it matters); Django
`Q` filters as boolean-valued predicates over rows; a row is a map
from attribute names to integer field values (the ordered, comparable
semantic domain of ordering columns).  Fallible Python code (raised
exceptions) is modelled with `Option` / `Except`.
-/

/-- A Python string: a sequence of unicode scalar values. -/
abbrev PyStr := List Char

/-- A database row, seen through the only interface the engine uses:
reading the value of an ordering field.  Field values live in `Int`,
a linearly ordered domain matching integer ordering columns. -/
abbrev Row := PyStr → Int

/-- `s.lstrip("-")`: drop every leading `'-'` character. -/
def lstripDash (s : PyStr) : PyStr := s.dropWhile (· == '-')

/-- `s.startswith("-")`. -/
def startsWithDash (s : PyStr) : Bool :=
  match s with
  | c :: _ => c == '-'
  | [] => false

/-- The `invert` helper inside `_reverse_ordering`:
`x[1:] if x.startswith("-") else "-" + x`. -/
def invertSpec (x : PyStr) : PyStr :=
  if startsWithDash x then x.drop 1 else '-' :: x

/-- `_reverse_ordering`: invert the direction of every specifier of an
`order_by` tuple. -/
def _reverse_ordering (ordering_tuple : List PyStr) : List PyStr :=
  ordering_tuple.map invertSpec

/-! ## Ordering resolution (`get_ordering`, default branch) -/

/-- Python `"__" in s` for a string `s`: substring containment of two
consecutive underscores. -/
def containsDunder : PyStr → Bool
  | [] => false
  | [_] => false
  | c1 :: c2 :: rest => (c1 == '_' && c2 == '_') || containsDunder (c2 :: rest)

/-- The caller-declared ordering: `str`, or `list`/`tuple` of `str`
(the `assert isinstance(ordering, (str, list, tuple))` gate). -/
inductive OrderingInput where
  | str (s : PyStr)
  | list (l : List PyStr)
deriving DecidableEq

/-- `get_ordering` (the default branch, no ordering filter backend on
the view), given the model's primary-key name.  The `assert` statements
(`UnsupportedOrdering` in the spec's vocabulary) are modelled as
`Except.error`.  Note that Python's `"__" not in ordering` is a
substring test when `ordering` is a `str`, but an element-membership
test when it is a `list`/`tuple`. -/
def get_ordering (ordering : OrderingInput) (pk_name : PyStr) :
    Except Unit (List PyStr) :=
  -- assert "__" not in ordering
  -- (substring containment for a str, element membership for a list/tuple)
  let bad : Bool := match ordering with
    | .str s => containsDunder s
    | .list l => decide (['_', '_'] ∈ l)
  if bad then .error ()
  else
    -- if isinstance(ordering, str): ordering = (ordering,)
    let ordering := match ordering with
      | .str s => [s]
      | .list l => l
    -- if not {"-pk_name", pk_name, "pk", "-pk"} & set(ordering): append
    if ('-' :: pk_name) ∈ ordering ∨ pk_name ∈ ordering ∨
        ['p', 'k'] ∈ ordering ∨ ['-', 'p', 'k'] ∈ ordering then
      .ok ordering
    else
      .ok (ordering ++ [pk_name])

/-! ## Theorems: `_reverse_ordering` (claim C10) -/

theorem startsWithDash_cons (c : Char) (t : PyStr) :
    startsWithDash (c :: t) = (c == '-') := rfl

theorem invertSpec_invertSpec (s : PyStr)
    (h : startsWithDash s = true → startsWithDash (s.drop 1) = false) :
    invertSpec (invertSpec s) = s := by
  cases s with
  | nil => rfl
  | cons c t =>
    by_cases hc : c = '-'
    · subst hc
      have ht : startsWithDash t = false := h (by simp [startsWithDash_cons])
      have h1 : invertSpec ('-' :: t) = t := by
        simp [invertSpec, startsWithDash_cons]
      rw [h1, invertSpec, ht]
      simp
    · have h1 : invertSpec (c :: t) = '-' :: c :: t := by
        simp [invertSpec, startsWithDash_cons, hc]
      rw [h1]
      simp [invertSpec, startsWithDash_cons]

/-- C10 (counterexample): `_reverse_ordering` is *not* an involution on
every tuple of non-empty specifiers: the specifier `"--a"` is non-empty,
yet reversing twice yields `("a",)` — `invert` strips one dash, and a
second application strips the remaining dash instead of re-prepending
the first one. -/
theorem reverse_ordering_not_involutive_on_double_dash :
    _reverse_ordering (_reverse_ordering [['-', '-', 'a']]) = [['a']] ∧
      [['a']] ≠ [['-', '-', 'a']] := by
  exact ⟨rfl, by decide⟩

/-- C10 (amended): `_reverse_ordering` flips each specifier in place
(strips a leading `-` or prepends one) while preserving tuple length and
field order — unconditionally — and it is an involution provided no
specifier starts with a doubled dash, i.e. each specifier is `field` or
`-field` where `field` does not itself start with `-`. -/
theorem reverse_ordering_flips_and_involutive (ordering : List PyStr)
    (h : ∀ s ∈ ordering,
      startsWithDash s = true → startsWithDash (s.drop 1) = false) :
    (_reverse_ordering ordering).length = ordering.length ∧
    (∀ i : Nat,
      (_reverse_ordering ordering)[i]? = (ordering[i]?).map invertSpec) ∧
    _reverse_ordering (_reverse_ordering ordering) = ordering := by
  refine ⟨by simp [_reverse_ordering], ?_, ?_⟩
  · intro i
    simp [_reverse_ordering]
  · induction ordering with
    | nil => rfl
    | cons s rest ih =>
      have hs := h s (List.mem_cons_self s rest)
      have hrest := ih (fun x hx => h x (List.mem_cons_of_mem _ hx))
      simp only [_reverse_ordering, List.map_cons] at hrest ⊢
      rw [invertSpec_invertSpec s hs, hrest]

/-- C10 witness: the amended involution theorem applied at
`("-created", "uuid")`. -/
theorem reverse_ordering_involutive_witness :
    (∀ s ∈ [['-', 'c'], ['u', 'u']],
      startsWithDash s = true → startsWithDash (s.drop 1) = false) ∧
    _reverse_ordering (_reverse_ordering [['-', 'c'], ['u', 'u']]) =
      [['-', 'c'], ['u', 'u']] := by
  refine ⟨by decide, ?_⟩
  exact (reverse_ordering_flips_and_involutive
    [['-', 'c'], ['u', 'u']] (by decide)).2.2

/-! ## Theorems: `get_ordering` (claims C6, C7) -/

theorem containsDunder_iff (s : PyStr) :
    containsDunder s = true ↔ ∃ a b, s = a ++ '_' :: '_' :: b := by
  induction s with
  | nil =>
    simp only [containsDunder, Bool.false_eq_true, false_iff]
    rintro ⟨a, b, hab⟩
    exact absurd hab (by cases a <;> simp)
  | cons c1 t ih =>
    cases t with
    | nil =>
      simp only [containsDunder, Bool.false_eq_true, false_iff]
      rintro ⟨a, b, hab⟩
      cases a with
      | nil => simp at hab
      | cons x a' => cases a' <;> simp at hab
    | cons c2 rest =>
      rw [containsDunder]
      constructor
      · intro hor
        rcases Bool.or_eq_true_iff.mp hor with hu | hd
        · obtain ⟨h1, h2⟩ := Bool.and_eq_true_iff.mp hu
          exact ⟨[], rest, by simp [eq_of_beq h1, eq_of_beq h2]⟩
        · obtain ⟨a, b, hab⟩ := ih.mp hd
          exact ⟨c1 :: a, b, by simp [hab]⟩
      · rintro ⟨a, b, hab⟩
        cases a with
        | nil =>
          simp only [List.nil_append, List.cons.injEq] at hab
          simp [hab.1, hab.2.1]
        | cons x a' =>
          simp only [List.cons_append, List.cons.injEq] at hab
          have : containsDunder (c2 :: rest) = true :=
            ih.mpr ⟨a', b, hab.2⟩
          simp [this]

/-- C7: resolving a caller list ordering against the unique key
`pk_name`: if the ordering already contains the unique key — ascending
or descending, under its own name or the `pk` alias — it is returned
unchanged; otherwise the unique key is appended ascending as the last
element. -/
theorem get_ordering_pk_handling (l : List PyStr) (pk_name : PyStr)
    (hnd : ['_', '_'] ∉ l) :
    get_ordering (.list l) pk_name =
      .ok (if ('-' :: pk_name) ∈ l ∨ pk_name ∈ l ∨
            ['p', 'k'] ∈ l ∨ ['-', 'p', 'k'] ∈ l
           then l else l ++ [pk_name]) := by
  unfold get_ordering
  rw [if_neg (by simpa using hnd)]
  show (if ('-' :: pk_name) ∈ l ∨ pk_name ∈ l ∨
      ['p', 'k'] ∈ l ∨ ['-', 'p', 'k'] ∈ l
    then (Except.ok l : Except Unit (List PyStr))
    else .ok (l ++ [pk_name])) = _
  split <;> rfl

/-- C7 witness: `resolve_ordering(["name"], unique_key="id")` yields
`("name", "id")` and `resolve_ordering(["id"], unique_key="id")` yields
`("id",)` unchanged, via the general theorem. -/
theorem get_ordering_pk_handling_witness :
    (['_', '_'] ∉ [['n', 'a', 'm', 'e']] ∧
      get_ordering (.list [['n', 'a', 'm', 'e']]) ['i', 'd'] =
        .ok [['n', 'a', 'm', 'e'], ['i', 'd']]) ∧
    (['_', '_'] ∉ [['i', 'd']] ∧
      get_ordering (.list [['i', 'd']]) ['i', 'd'] = .ok [['i', 'd']]) := by
  constructor
  · exact ⟨by decide,
      (get_ordering_pk_handling [['n', 'a', 'm', 'e']] ['i', 'd']
        (by decide)).trans (by rfl)⟩
  · exact ⟨by decide,
      (get_ordering_pk_handling [['i', 'd']] ['i', 'd']
        (by decide)).trans (by rfl)⟩

/-- C6 (counterexample): a caller-declared *list* ordering containing the
cross-entity lookup `"a__b"` is **not** rejected: Python's
`"__" not in ordering` is an element-membership test on lists, so
`["a__b"]` passes the assertion and resolution produces an ordering
tuple (with the primary key appended) instead of failing. -/
theorem get_ordering_list_dunder_not_rejected :
    get_ordering (.list [['a', '_', '_', 'b']]) ['i', 'd'] =
      .ok [['a', '_', '_', 'b'], ['i', 'd']] := by
  rfl

/-- C6 (amended): only *string* caller orderings are checked for `__` by
substring: a string ordering containing `__` fails (`UnsupportedOrdering`,
modelled as `.error ()`); a list (or tuple) ordering is rejected exactly
when one of its elements is the literal string `"__"` — an element merely
containing `__` passes through. -/
theorem get_ordering_dunder_rejection (s : PyStr) (pk : PyStr)
    (h : ∃ a b, s = a ++ '_' :: '_' :: b) :
    get_ordering (.str s) pk = .error () ∧
    ∀ l : List PyStr,
      ((∃ e, get_ordering (.list l) pk = .error e) ↔ ['_', '_'] ∈ l) := by
  constructor
  · have hc : containsDunder s = true := (containsDunder_iff s).mpr h
    unfold get_ordering
    simp [hc]
  · intro l
    constructor
    · rintro ⟨e, he⟩
      by_contra hmem
      rw [get_ordering_pk_handling l pk hmem] at he
      exact Except.noConfusion he
    · intro hmem
      refine ⟨(), ?_⟩
      unfold get_ordering
      simp [hmem]

/-- C6 witness: the amended rejection theorem applied at the string
ordering `"rel__f"`. -/
theorem get_ordering_dunder_rejection_witness :
    (∃ a b, ['r', 'e', 'l', '_', '_', 'f'] = a ++ '_' :: '_' :: b) ∧
    get_ordering (.str ['r', 'e', 'l', '_', '_', 'f']) ['i', 'd'] =
      .error () := by
  refine ⟨⟨['r', 'e', 'l'], ['f'], by decide⟩, ?_⟩
  exact (get_ordering_dunder_rejection ['r', 'e', 'l', '_', '_', 'f']
    ['i', 'd'] ⟨['r', 'e', 'l'], ['f'], by decide⟩).1

/-! ## The boundary-predicate builder (disjunctive strategy)

`paginate_queryset`, lines 126–160: builds two Python dicts of `Q`
objects keyed by ordering specifier, then assembles
`filter_list = [compare[o1]] ++ [AND-chain for each i in range(n)]`
and ORs them together.  `Q` filters are modelled semantically as
row predicates; dict lookups that would raise `KeyError` (and the
`ordering[0]` / `reduce` on empty that would raise `IndexError` /
`TypeError`) are modelled as `none`. -/

/-- Python dict lookup for a dict built by successive `d[k] = v`
assignments in list order: a later assignment overwrites an earlier
one, so the *last* matching entry wins.  `none` models `KeyError`. -/
def dictGet {β : Type} : List (PyStr × β) → PyStr → Option β
  | [], _ => none
  | kv :: rest, k =>
    match dictGet rest k with
    | some v => some v
    | none => if kv.1 == k then some kv.2 else none

/-- `functools.reduce(op, l)`; `none` models the `TypeError` raised on
an empty sequence. -/
def reduce1 {β : Type} (op : β → β → β) : List β → Option β
  | [] => none
  | h :: t => some (t.foldl op h)

/-- Effectful list map in `Option` (a `for` loop whose body may raise,
modelled by `none`). -/
def mapMO {α β : Type} (f : α → Option β) : List α → Option (List β)
  | [] => some []
  | a :: as => do
    let b ← f a
    let bs ← mapMO f as
    pure (b :: bs)

/-- `Q(**{attr: value})` on an integer ordering column. -/
def qEq (attr : PyStr) (v : Int) : Row → Bool := fun row => row attr == v

/-- `Q(**{attr + "__lt": value})`. -/
def qLt (attr : PyStr) (v : Int) : Row → Bool := fun row => decide (row attr < v)

/-- `Q(**{attr + "__gt": value})`. -/
def qGt (attr : PyStr) (v : Int) : Row → Bool := fun row => decide (row attr > v)

/-- `&` of two `Q` filters. -/
def qAnd (p q : Row → Bool) : Row → Bool := fun row => p row && q row

/-- `|` of two `Q` filters. -/
def qOr (p q : Row → Bool) : Row → Bool := fun row => p row || q row

/-- The per-field comparison `Q` object: the source's
`if self.cursor.reverse != is_reversed: __lt else: __gt` — `<` when
(cursor reversed) XOR (field descending), `>` otherwise. -/
def cmpDir (cursor_reverse : Bool) (spec : PyStr) (v : Int) : Row → Bool :=
  if cursor_reverse != startsWithDash spec then qLt (lstripDash spec) v
  else qGt (lstripDash spec) v

/-- One iteration of the filter-construction loop
(`for i in range(len(ordering))`):
`equals = list(ordering[: i + 2])`;
`greater_than_q = q_objects_compare[equals.pop()]`;
`sub_filters = [q_objects_equals[e] for e in equals]`;
`sub_filters.append(greater_than_q)`;
`reduce(operator.and_, sub_filters)`. -/
def chainBlock (ordering : List PyStr)
    (q_objects_equals q_objects_compare : List (PyStr × (Row → Bool)))
    (i : Nat) : Option (Row → Bool) := do
  -- equals = list(ordering[: i + 2]), written inline below
  let lastSpec ← (ordering.take (i + 2)).getLast?
  let greater_than_q ← dictGet q_objects_compare lastSpec
  let sub_filters ← mapMO (fun e => dictGet q_objects_equals e)
    (ordering.take (i + 2)).dropLast
  reduce1 qAnd (sub_filters ++ [greater_than_q])

/-- The disjunctive boundary filter of `paginate_queryset` (non-tuple
branch), over an already-`json.loads`-ed position value list. -/
def build_boundary_filter (ordering : List PyStr) (cursor_reverse : Bool)
    (current_position_list : List Int) : Option (Row → Bool) := do
  let pairs := ordering.zip current_position_list
  let q_objects_equals := pairs.map fun op =>
    (op.1, qEq (lstripDash op.1) op.2)
  let q_objects_compare := pairs.map fun op =>
    (op.1, cmpDir cursor_reverse op.1 op.2)
  -- filter_list = [q_objects_compare[self.ordering[0]]]
  let o0 ← ordering.head?
  let first ← dictGet q_objects_compare o0
  -- filter_list.append(...) for each i in range(len(ordering))
  let chains ← mapMO (chainBlock ordering q_objects_equals q_objects_compare)
    (List.range ordering.length)
  -- q_object = reduce(operator.or_, filter_list)
  reduce1 qOr (first :: chains)

/-- The equality `Q` object of field `j` of the ordering
(`f_j == v_j` in the spec's lexicographic formula). -/
def eqAt (ordering : List PyStr) (positions : List Int) (j : Nat) :
    Row → Bool :=
  qEq (lstripDash (ordering.getD j [])) (positions.getD j 0)

/-- The comparison `Q` object of field `i` (`f_i CMP(i) v_i`). -/
def cmpAt (ordering : List PyStr) (positions : List Int)
    (cursor_reverse : Bool) (i : Nat) : Row → Bool :=
  cmpDir cursor_reverse (ordering.getD i []) (positions.getD i 0)

/-- The canonical per-field disjunctive lexicographic expansion of
spec §4.3 / claim C1:
`OR over i in 1..n of (f1 = v1 ∧ … ∧ f(i-1) = v(i-1) ∧ fi CMP(i) vi)`,
with `CMP(i)` `>` exactly when (field i descending) XOR (traversal
reversed) is false. -/
def lexExpansion (ordering : List PyStr) (cursor_reverse : Bool)
    (positions : List Int) (row : Row) : Bool :=
  (List.range ordering.length).any fun i =>
    ((List.range i).all fun j => eqAt ordering positions j row) &&
    cmpAt ordering positions cursor_reverse i row

/-- The value of the `i`-th appended chain: equalities on fields
`0 .. min(i+1, n-1) - 1`, then the comparison on field
`min(i+1, n-1)`. -/
def chainFn (ordering : List PyStr) (positions : List Int)
    (cursor_reverse : Bool) (i : Nat) : Row → Bool :=
  fun row =>
    ((List.range (min (i + 1) (ordering.length - 1))).all fun j =>
      eqAt ordering positions j row) &&
    cmpAt ordering positions cursor_reverse
      (min (i + 1) (ordering.length - 1)) row

theorem bindSomeEq {α β : Type} (a : α) (f : α → Option β) :
    (do let x ← some a; f x : Option β) = f a := rfl

theorem foldl_qAnd_eq (t : List (Row → Bool)) (h : Row → Bool) :
    t.foldl qAnd h = fun row => h row && t.all fun p => p row := by
  induction t generalizing h with
  | nil => funext row; simp
  | cons a t ih =>
    rw [List.foldl_cons, ih (qAnd h a)]
    funext row
    simp [qAnd, Bool.and_assoc]

theorem foldl_qOr_eq (t : List (Row → Bool)) (h : Row → Bool) :
    t.foldl qOr h = fun row => h row || t.any fun p => p row := by
  induction t generalizing h with
  | nil => funext row; simp
  | cons a t ih =>
    rw [List.foldl_cons, ih (qOr h a)]
    funext row
    simp [qOr, Bool.or_assoc]

theorem dictGet_eq_none {β : Type} (l : List (PyStr × β)) (k : PyStr)
    (h : ∀ kv ∈ l, kv.1 ≠ k) : dictGet l k = none := by
  induction l with
  | nil => rfl
  | cons kv rest ih =>
    rw [dictGet, ih (fun x hx => h x (List.mem_cons_of_mem _ hx))]
    have hne : (kv.1 == k) = false :=
      beq_eq_false_iff_ne.mpr (h kv (List.mem_cons_self _ _))
    simp [hne]

theorem dictGet_zipMap {β : Type} (f : PyStr → Int → β)
    (ordering : List PyStr) (positions : List Int)
    (hnd : ordering.Nodup) :
    ∀ i, i < ordering.length → i < positions.length →
      dictGet ((ordering.zip positions).map fun op => (op.1, f op.1 op.2))
          (ordering.getD i []) =
        some (f (ordering.getD i []) (positions.getD i 0)) := by
  induction ordering generalizing positions with
  | nil => intro i hi _; simp at hi
  | cons o os ih =>
    cases positions with
    | nil => intro i _ hi2; simp at hi2
    | cons p ps =>
      intro i hi hi2
      rw [List.zip_cons_cons, List.map_cons, dictGet]
      cases i with
      | zero =>
        simp only [List.getD_cons_zero]
        have hnone :
            dictGet ((os.zip ps).map fun op => (op.1, f op.1 op.2)) o =
              none := by
          apply dictGet_eq_none
          intro kv hkv
          obtain ⟨op, hop, rfl⟩ := List.mem_map.mp hkv
          have hmem : op.1 ∈ os := (List.of_mem_zip hop).1
          exact fun hc => (List.nodup_cons.mp hnd).1 (hc ▸ hmem)
        rw [hnone]
        simp
      | succ i =>
        simp only [List.getD_cons_succ]
        have hrec := ih ps (List.nodup_cons.mp hnd).2 i
          (by simpa using hi) (by simpa using hi2)
        rw [hrec]

theorem mapMO_append {α β : Type} (f : α → Option β) (l₁ l₂ : List α) :
    mapMO f (l₁ ++ l₂) = (do
      let b₁ ← mapMO f l₁
      let b₂ ← mapMO f l₂
      pure (b₁ ++ b₂)) := by
  induction l₁ with
  | nil =>
    simp only [List.nil_append, mapMO]
    cases mapMO f l₂ <;> rfl
  | cons a as ih =>
    simp only [List.cons_append, mapMO, List.append_eq]
    rw [ih]
    cases f a with
    | none => rfl
    | some b =>
      simp only [bindSomeEq]
      cases mapMO f as with
      | none => rfl
      | some bs =>
        simp only [bindSomeEq]
        cases mapMO f l₂ <;> rfl

theorem mapMO_eq_some_map {α β : Type} (f : α → Option β) (g : α → β)
    (l : List α) (h : ∀ a ∈ l, f a = some (g a)) :
    mapMO f l = some (l.map g) := by
  induction l with
  | nil => rfl
  | cons a as ih =>
    rw [mapMO, h a (List.mem_cons_self _ _),
      ih (fun x hx => h x (List.mem_cons_of_mem _ hx))]
    rfl

theorem mapMO_dictGet_eq_take (ordering : List PyStr)
    (positions : List Int) (hnd : ordering.Nodup)
    (hlen : ordering.length ≤ positions.length)
    (k : Nat) (hk : k ≤ ordering.length) :
    mapMO (fun e => dictGet ((ordering.zip positions).map fun op =>
        (op.1, qEq (lstripDash op.1) op.2)) e) (ordering.take k) =
      some ((List.range k).map fun j => eqAt ordering positions j) := by
  induction k with
  | zero => rfl
  | succ k ih =>
    have hk' : k < ordering.length := by omega
    rw [List.take_succ, mapMO_append, ih (by omega)]
    have hget : ordering[k]? = some (ordering.getD k []) := by
      rw [List.getElem?_eq_getElem hk', List.getD_eq_getElem _ _ hk']
    rw [hget]
    simp only [Option.toList_some, bindSomeEq]
    rw [mapMO]
    rw [dictGet_zipMap (fun o p => qEq (lstripDash o) p) ordering positions
      hnd k hk' (by omega)]
    simp only [bindSomeEq, mapMO]
    rw [List.range_succ, List.map_append]
    rfl

theorem reduce1_qAnd_append (l : List (Row → Bool)) (g : Row → Bool) :
    reduce1 qAnd (l ++ [g]) =
      some fun row => (l.all fun p => p row) && g row := by
  cases l with
  | nil =>
    simp only [List.nil_append, reduce1, List.foldl_nil]
    refine congrArg some ?_
    funext row
    simp
  | cons h t =>
    simp only [List.cons_append, reduce1]
    refine congrArg some ?_
    rw [foldl_qAnd_eq]
    funext row
    simp [Bool.and_assoc]

theorem any_mapFn {α β : Type} (f : α → β) (l : List α) (p : β → Bool) :
    (l.map f).any p = l.any fun a => p (f a) := by
  induction l with
  | nil => rfl
  | cons a as ih => simp [ih]

theorem all_mapFn {α β : Type} (f : α → β) (l : List α) (p : β → Bool) :
    (l.map f).all p = l.all fun a => p (f a) := by
  induction l with
  | nil => rfl
  | cons a as ih => simp [ih]

theorem chainBlock_eval (ordering : List PyStr) (positions : List Int)
    (cursor_reverse : Bool) (hnd : ordering.Nodup)
    (hlen : ordering.length ≤ positions.length)
    (hne : ordering ≠ []) (i : Nat) (hi : i < ordering.length) :
    chainBlock ordering
      ((ordering.zip positions).map fun op =>
        (op.1, qEq (lstripDash op.1) op.2))
      ((ordering.zip positions).map fun op =>
        (op.1, cmpDir cursor_reverse op.1 op.2))
      i = some (chainFn ordering positions cursor_reverse i) := by
  have hnpos : 0 < ordering.length := List.length_pos.mpr hne
  have hmlt : min (i + 1) (ordering.length - 1) < ordering.length := by
    omega
  have hlenTake : (ordering.take (i + 2)).length =
      min (i + 2) ordering.length := by
    simp [List.length_take]
  have hlast : (ordering.take (i + 2)).getLast? =
      some (ordering.getD (min (i + 1) (ordering.length - 1)) []) := by
    rw [List.getLast?_eq_getElem?, hlenTake]
    have hidx : min (i + 2) ordering.length - 1 =
        min (i + 1) (ordering.length - 1) := by omega
    rw [hidx, List.getElem?_take, if_pos (by omega),
      List.getElem?_eq_getElem hmlt,
      List.getD_eq_getElem _ _ hmlt]
  have hdrop : (ordering.take (i + 2)).dropLast =
      ordering.take (min (i + 1) (ordering.length - 1)) := by
    rw [List.dropLast_eq_take, hlenTake, List.take_take]
    congr 1
    omega
  unfold chainBlock
  rw [hlast]
  simp only [bindSomeEq]
  rw [dictGet_zipMap (fun o p => cmpDir cursor_reverse o p) ordering
    positions hnd _ hmlt (by omega)]
  simp only [bindSomeEq]
  rw [hdrop, mapMO_dictGet_eq_take ordering positions hnd hlen _
    (by omega)]
  simp only [bindSomeEq]
  rw [reduce1_qAnd_append]
  refine congrArg some ?_
  funext row
  unfold chainFn cmpAt
  congr 1
  rw [all_mapFn]

theorem indexCover (n : Nat) (hn : 0 < n) (D : Nat → Bool) :
    (D 0 || (List.range n).any fun i => D (min (i + 1) (n - 1))) =
      (List.range n).any D := by
  rw [Bool.eq_iff_iff]
  simp only [Bool.or_eq_true, List.any_eq_true, List.mem_range]
  constructor
  · rintro (h0 | ⟨i, hi, hD⟩)
    · exact ⟨0, hn, h0⟩
    · exact ⟨min (i + 1) (n - 1), by omega, hD⟩
  · rintro ⟨d, hd, hD⟩
    rcases Nat.eq_zero_or_pos d with rfl | hdpos
    · exact Or.inl hD
    · refine Or.inr ⟨d - 1, by omega, ?_⟩
      have hmin : min (d - 1 + 1) (n - 1) = d := by omega
      rw [hmin]
      exact hD

/-- C1: for every ordering of distinct fields (mixed directions
allowed), every matching position list and both traversal directions,
the disjunctive boundary filter built by `paginate_queryset`'s
iterative loop is logically equivalent to the canonical lexicographic
expansion `OR over i of (f1 = v1 ∧ … ∧ f(i-1) = v(i-1) ∧ fi CMP(i) vi)`,
with `CMP(i)` `>` exactly when (field i descending) XOR (cursor
reverse) is false, and `<` otherwise. -/
theorem build_boundary_filter_eq_lexExpansion (ordering : List PyStr)
    (cursor_reverse : Bool) (positions : List Int)
    (hne : ordering ≠ []) (hnd : ordering.Nodup)
    (hlen : positions.length = ordering.length) :
    ∃ p, build_boundary_filter ordering cursor_reverse positions = some p ∧
      ∀ row, p row =
        lexExpansion ordering cursor_reverse positions row := by
  have hnpos : 0 < ordering.length := List.length_pos.mpr hne
  have hlen' : ordering.length ≤ positions.length := hlen.ge
  have hhead : ordering.head? = some (ordering.getD 0 []) := by
    cases ordering with
    | nil => exact absurd rfl hne
    | cons o os => rfl
  have hchains :
      mapMO (chainBlock ordering
        ((ordering.zip positions).map fun op =>
          (op.1, qEq (lstripDash op.1) op.2))
        ((ordering.zip positions).map fun op =>
          (op.1, cmpDir cursor_reverse op.1 op.2)))
        (List.range ordering.length) =
      some ((List.range ordering.length).map
        (chainFn ordering positions cursor_reverse)) := by
    apply mapMO_eq_some_map
    intro i hi
    exact chainBlock_eval ordering positions cursor_reverse hnd hlen' hne i
      (List.mem_range.mp hi)
  unfold build_boundary_filter
  rw [hhead]
  simp only [bindSomeEq]
  rw [dictGet_zipMap (fun o p => cmpDir cursor_reverse o p) ordering
    positions hnd 0 hnpos (by omega)]
  simp only [bindSomeEq]
  rw [hchains]
  simp only [bindSomeEq]
  rw [reduce1]
  refine ⟨_, rfl, ?_⟩
  intro row
  rw [foldl_qOr_eq]
  show (cmpDir cursor_reverse (ordering.getD 0 []) (positions.getD 0 0)
      row ||
      ((List.range ordering.length).map
        (chainFn ordering positions cursor_reverse)).any
        fun p => p row) =
    lexExpansion ordering cursor_reverse positions row
  rw [any_mapFn]
  have hD := indexCover ordering.length hnpos
    (fun d => ((List.range d).all fun j =>
      eqAt ordering positions j row) &&
      cmpAt ordering positions cursor_reverse d row)
  simp only at hD
  rw [lexExpansion, ← hD]
  congr 1

/-- C1 witness: the equivalence at ordering `("-a", "b")`, position
`(5, 10)`, forward traversal (where the expansion reads
`(a < 5) OR (a = 5 AND b > 10)`). -/
theorem build_boundary_filter_eq_lexExpansion_witness :
    (([['-', 'a'], ['b']] : List PyStr) ≠ [] ∧
      ([['-', 'a'], ['b']] : List PyStr).Nodup ∧
      ([5, 10] : List Int).length =
        ([['-', 'a'], ['b']] : List PyStr).length) ∧
    ∃ p, build_boundary_filter [['-', 'a'], ['b']] false [5, 10] = some p ∧
      ∀ row, p row = lexExpansion [['-', 'a'], ['b']] false [5, 10] row :=
  ⟨⟨by decide, by decide, by decide⟩,
    build_boundary_filter_eq_lexExpansion [['-', 'a'], ['b']] false [5, 10]
      (by decide) (by decide) (by decide)⟩

/-! ## The tuple-comparison strategy (claim C3)

`paginate_queryset`, lines 91–124: `(f1, …, fn)` compared against the
cast position values with the store's row-value comparison, which is
the natural (per-component ascending) lexicographic order. -/

/-- `_all_ascending`: `not any(o.startswith("-") for o in ordering)`. -/
def _all_ascending (ordering : List PyStr) : Bool :=
  !((ordering.map startsWithDash).any fun d => d)

/-- `_all_descending`: `all(o.startswith("-") for o in ordering)`. -/
def _all_descending (ordering : List PyStr) : Bool :=
  (ordering.map startsWithDash).all fun d => d

/-- `_uniform_ordering`. -/
def _uniform_ordering (ordering : List PyStr) : Bool :=
  _all_ascending ordering || _all_descending ordering

/-- `should_use_tuple_comparison`: needs the opt-in flag and a uniform
ordering. -/
def should_use_tuple_comparison (use_tuple_comparison : Bool)
    (ordering : List PyStr) : Bool :=
  if !use_tuple_comparison then false
  else if !(_uniform_ordering ordering) then false
  else true

/-- SQL row-value `>`: lexicographic with natural per-component order. -/
def lexGtVals : List Int → List Int → Bool
  | a :: as, b :: bs => decide (a > b) || (a == b && lexGtVals as bs)
  | _, _ => false

/-- SQL row-value `<`. -/
def lexLtVals : List Int → List Int → Bool
  | a :: as, b :: bs => decide (a < b) || (a == b && lexLtVals as bs)
  | _, _ => false

/-- The tuple-comparison boundary filter (`_cursor_tuple__gt` /
`_cursor_tuple__lt` on `(f1,…,fn)` against the cast position values). -/
def build_tuple_filter (ordering : List PyStr) (cursor_reverse : Bool)
    (current_position_list : List Int) : Row → Bool :=
  -- field_names = [o.lstrip("-") for o in self.ordering]
  let field_names := ordering.map lstripDash
  -- is_moving_forward = not self.cursor.reverse
  let is_moving_forward := !cursor_reverse
  let should_use_gt :=
    (_all_ascending ordering && is_moving_forward) ||
    (_all_descending ordering && !is_moving_forward)
  fun row =>
    if should_use_gt then
      lexGtVals (field_names.map row) current_position_list
    else
      lexLtVals (field_names.map row) current_position_list

/-- Recursive form of the disjunctive lexicographic expansion. -/
def lexRec (cursor_reverse : Bool) :
    List PyStr → List Int → Row → Bool
  | o :: os, v :: vs, row =>
    cmpDir cursor_reverse o v row ||
      (qEq (lstripDash o) v row && lexRec cursor_reverse os vs row)
  | _, _, _ => false

theorem any_and_left {α : Type} (c : Bool) (f : α → Bool) (l : List α) :
    (l.any fun a => c && f a) = (c && l.any f) := by
  cases c <;> simp

theorem lexExpansion_eq_lexRec (ordering : List PyStr)
    (cursor_reverse : Bool) (positions : List Int)
    (hlen : positions.length = ordering.length) (row : Row) :
    lexExpansion ordering cursor_reverse positions row =
      lexRec cursor_reverse ordering positions row := by
  induction ordering generalizing positions with
  | nil => rfl
  | cons o os ih =>
    cases positions with
    | nil => simp at hlen
    | cons v vs =>
      unfold lexExpansion
      rw [List.length_cons, List.range_succ_eq_map, List.any_cons,
        any_mapFn]
      have hshift :
          (List.range os.length).any (fun i =>
            ((List.range (i + 1)).all fun j =>
              eqAt (o :: os) (v :: vs) j row) &&
            cmpAt (o :: os) (v :: vs) cursor_reverse (i + 1) row) =
          (qEq (lstripDash o) v row &&
            (List.range os.length).any fun i =>
              ((List.range i).all fun j => eqAt os vs j row) &&
              cmpAt os vs cursor_reverse i row) := by
        rw [← any_and_left]
        congr 1
        funext i
        rw [List.range_succ_eq_map, List.all_cons, all_mapFn]
        have he0 : eqAt (o :: os) (v :: vs) 0 row =
            qEq (lstripDash o) v row := rfl
        have heS : (List.range i).all
            (fun a => eqAt (o :: os) (v :: vs) (a + 1) row) =
            (List.range i).all fun j => eqAt os vs j row := rfl
        have hcS : cmpAt (o :: os) (v :: vs) cursor_reverse (i + 1) row =
            cmpAt os vs cursor_reverse i row := rfl
        rw [he0, heS, hcS, Bool.and_assoc]
      rw [hshift]
      unfold lexRec
      have hih := ih vs (by simpa using hlen)
      unfold lexExpansion at hih
      rw [hih]
      rfl

theorem lexRec_eq_lexGtVals (cursor_reverse : Bool)
    (ordering : List PyStr) (positions : List Int)
    (h : ∀ o ∈ ordering, (cursor_reverse != startsWithDash o) = false)
    (row : Row) :
    lexRec cursor_reverse ordering positions row =
      lexGtVals ((ordering.map lstripDash).map row) positions := by
  induction ordering generalizing positions with
  | nil => cases positions <;> rfl
  | cons o os ih =>
    cases positions with
    | nil => rfl
    | cons v vs =>
      have ho := h o (List.mem_cons_self _ _)
      unfold lexRec lexGtVals
      rw [cmpDir, if_neg (by simp [ho])]
      rw [ih vs (fun x hx => h x (List.mem_cons_of_mem _ hx))]
      rfl

theorem lexRec_eq_lexLtVals (cursor_reverse : Bool)
    (ordering : List PyStr) (positions : List Int)
    (h : ∀ o ∈ ordering, (cursor_reverse != startsWithDash o) = true)
    (row : Row) :
    lexRec cursor_reverse ordering positions row =
      lexLtVals ((ordering.map lstripDash).map row) positions := by
  induction ordering generalizing positions with
  | nil => cases positions <;> rfl
  | cons o os ih =>
    cases positions with
    | nil => rfl
    | cons v vs =>
      have ho := h o (List.mem_cons_self _ _)
      unfold lexRec lexLtVals
      rw [cmpDir, if_pos ho]
      rw [ih vs (fun x hx => h x (List.mem_cons_of_mem _ hx))]
      rfl

theorem all_ascending_iff (ordering : List PyStr) :
    _all_ascending ordering = true ↔
      ∀ o ∈ ordering, startsWithDash o = false := by
  unfold _all_ascending
  rw [any_mapFn]
  simp

theorem all_descending_iff (ordering : List PyStr) :
    _all_descending ordering = true ↔
      ∀ o ∈ ordering, startsWithDash o = true := by
  unfold _all_descending
  rw [all_mapFn]
  simp

/-- C3: for every uniformly-ascending or uniformly-descending ordering
(of distinct, non-empty specifiers), every matching position and both
traversal directions, the rows selected by the tuple-comparison
strategy (`should_use_gt` choosing `_cursor_tuple__gt` /
`_cursor_tuple__lt`) are exactly the rows selected by the disjunctive
per-field strategy. -/
theorem tuple_filter_eq_disjunctive (ordering : List PyStr)
    (cursor_reverse : Bool) (positions : List Int)
    (hu : _uniform_ordering ordering = true)
    (hne : ordering ≠ []) (hnd : ordering.Nodup)
    (hlen : positions.length = ordering.length) :
    ∃ p, build_boundary_filter ordering cursor_reverse positions = some p ∧
      ∀ row, build_tuple_filter ordering cursor_reverse positions row =
        p row := by
  obtain ⟨p, hp, hpr⟩ := build_boundary_filter_eq_lexExpansion ordering
    cursor_reverse positions hne hnd hlen
  refine ⟨p, hp, ?_⟩
  intro row
  rw [hpr row, lexExpansion_eq_lexRec ordering cursor_reverse positions
    hlen row]
  rcases Bool.or_eq_true_iff.mp hu with hasc | hdesc
  · have hall := (all_ascending_iff ordering).mp hasc
    have hdesc' : _all_descending ordering = false := by
      cases ordering with
      | nil => exact absurd rfl hne
      | cons o os =>
        have h0 := hall o (List.mem_cons_self _ _)
        unfold _all_descending
        simp [h0]
    cases cursor_reverse with
    | false =>
      rw [lexRec_eq_lexGtVals false ordering positions
        (fun o ho => by simp [hall o ho]) row]
      simp [build_tuple_filter, hasc, hdesc']
    | true =>
      rw [lexRec_eq_lexLtVals true ordering positions
        (fun o ho => by simp [hall o ho]) row]
      simp [build_tuple_filter, hasc, hdesc']
  · have hall := (all_descending_iff ordering).mp hdesc
    have hasc' : _all_ascending ordering = false := by
      cases ordering with
      | nil => exact absurd rfl hne
      | cons o os =>
        have h0 := hall o (List.mem_cons_self _ _)
        unfold _all_ascending
        simp [h0]
    cases cursor_reverse with
    | false =>
      rw [lexRec_eq_lexLtVals false ordering positions
        (fun o ho => by simp [hall o ho]) row]
      simp [build_tuple_filter, hasc', hdesc]
    | true =>
      rw [lexRec_eq_lexGtVals true ordering positions
        (fun o ho => by simp [hall o ho]) row]
      simp [build_tuple_filter, hasc', hdesc]

/-- C3 witness: the strategies agree at the ascending ordering
`("a", "b")`, position `(5, 10)`, forward traversal. -/
theorem tuple_filter_eq_disjunctive_witness :
    (_uniform_ordering [['a'], ['b']] = true ∧
      ([['a'], ['b']] : List PyStr) ≠ [] ∧
      ([['a'], ['b']] : List PyStr).Nodup ∧
      ([5, 10] : List Int).length = ([['a'], ['b']] : List PyStr).length) ∧
    ∃ p, build_boundary_filter [['a'], ['b']] false [5, 10] = some p ∧
      ∀ row, build_tuple_filter [['a'], ['b']] false [5, 10] row = p row :=
  ⟨⟨by decide, by decide, by decide, by decide⟩,
    tuple_filter_eq_disjunctive [['a'], ['b']] false [5, 10]
      (by decide) (by decide) (by decide) (by decide)⟩

/-! ## Position-count mismatch (claim C5) -/

theorem zip_take_len {α β : Type} (l₁ : List α) (l₂ : List β) :
    l₁.zip (l₂.take l₁.length) = l₁.zip l₂ := by
  induction l₁ generalizing l₂ with
  | nil => simp
  | cons a as ih =>
    cases l₂ with
    | nil => simp
    | cons b bs => simp [ih]

theorem zip_take_len_left {α β : Type} (l₁ : List α) (l₂ : List β) :
    (l₁.take l₂.length).zip l₂ = l₁.zip l₂ := by
  induction l₁ generalizing l₂ with
  | nil => simp
  | cons a as ih =>
    cases l₂ with
    | nil => simp
    | cons b bs => simp [ih]

theorem mapMO_eq_none {α β : Type} (f : α → Option β) (l : List α)
    (a : α) (ha : a ∈ l) (hf : f a = none) : mapMO f l = none := by
  induction l with
  | nil => simp at ha
  | cons b bs ih =>
    rw [mapMO]
    rcases List.mem_cons.mp ha with rfl | hmem
    · rw [hf]
      rfl
    · cases hb : f b with
      | none => rfl
      | some v =>
        rw [ih hmem]
        rfl

/-- C5 (counterexample): a decoded position whose value count (3) does
not match the ordering length (2) is **not** rejected anywhere: the
builder zips ordering with positions, silently ignores the extra value,
and produces a filter — the page request does not fail with
`InvalidCursor`. -/
theorem position_count_mismatch_not_rejected :
    ([5, 10, 15] : List Int).length ≠ ([['a'], ['b']] : List PyStr).length ∧
    (build_boundary_filter [['a'], ['b']] false [5, 10, 15]).isSome =
      true := by
  exact ⟨by decide, rfl⟩

/-- C5 (amended): no position-count validation exists, neither in
`decode_cursor` nor before the boundary builder.  With *more* position
values than ordering fields the extra values are silently ignored and
the filter is built; with *fewer* values the builder itself crashes on
a dict `KeyError` (modelled as `none`) — neither case surfaces
`InvalidCursor`. -/
theorem position_count_mismatch_behavior (ordering : List PyStr)
    (cursor_reverse : Bool) (positions : List Int)
    (hne : ordering ≠ []) (hnd : ordering.Nodup) :
    (ordering.length ≤ positions.length →
      (build_boundary_filter ordering cursor_reverse positions).isSome =
        true) ∧
    (positions.length < ordering.length →
      build_boundary_filter ordering cursor_reverse positions = none) := by
  constructor
  · intro hle
    have heq : build_boundary_filter ordering cursor_reverse positions =
        build_boundary_filter ordering cursor_reverse
          (positions.take ordering.length) := by
      unfold build_boundary_filter
      rw [zip_take_len]
    obtain ⟨p, hp, -⟩ := build_boundary_filter_eq_lexExpansion ordering
      cursor_reverse (positions.take ordering.length) hne hnd
      (by simp only [List.length_take]; omega)
    rw [heq, hp]
    rfl
  · intro hlt
    have hnpos : 0 < ordering.length := List.length_pos.mpr hne
    have hhead : ordering.head? = some (ordering.getD 0 []) := by
      cases ordering with
      | nil => exact absurd rfl hne
      | cons o os => rfl
    rcases Nat.eq_zero_or_pos positions.length with hc0 | hcpos
    · -- no position values at all: even the first dict lookup fails
      have hpos : positions = [] := List.length_eq_zero.mp hc0
      subst hpos
      unfold build_boundary_filter
      rw [hhead, List.zip_nil_right]
      rfl
    · -- the chain at i = count - 1 looks up ordering[count]: KeyError
      unfold build_boundary_filter
      rw [hhead]
      simp only [bindSomeEq]
      rw [dictGet_zipMap (fun o p => cmpDir cursor_reverse o p) ordering
        positions hnd 0 hnpos hcpos]
      simp only [bindSomeEq]
      have hfail : chainBlock ordering
          ((ordering.zip positions).map fun op =>
            (op.1, qEq (lstripDash op.1) op.2))
          ((ordering.zip positions).map fun op =>
            (op.1, cmpDir cursor_reverse op.1 op.2))
          (positions.length - 1) = none := by
        unfold chainBlock
        have h2 : positions.length - 1 + 2 = positions.length + 1 := by
          omega
        have hlast : (ordering.take (positions.length - 1 + 2)).getLast? =
            some (ordering.getD positions.length []) := by
          rw [h2, List.getLast?_eq_getElem?]
          have hlen2 : (ordering.take (positions.length + 1)).length =
              positions.length + 1 := by
            simp only [List.length_take]
            omega
          rw [hlen2]
          simp only [Nat.add_sub_cancel]
          rw [List.getElem?_take, if_pos (by omega),
            List.getElem?_eq_getElem hlt,
            List.getD_eq_getElem _ _ hlt]
        rw [hlast]
        simp only [bindSomeEq]
        have hnotin : ordering.getD positions.length [] ∉
            ordering.take positions.length := by
          intro hmem
          obtain ⟨j, hj, hjeq⟩ := List.mem_iff_getElem.mp hmem
          have hjlt : j < positions.length := by
            have := hj
            simp only [List.length_take] at this
            omega
          rw [List.getElem_take] at hjeq
          rw [List.getD_eq_getElem _ _ hlt] at hjeq
          have := (hnd.getElem_inj_iff).mp hjeq
          omega
        have hdnone : dictGet ((ordering.zip positions).map fun op =>
            (op.1, cmpDir cursor_reverse op.1 op.2))
            (ordering.getD positions.length []) = none := by
          apply dictGet_eq_none
          intro kv hkv
          obtain ⟨op, hop, rfl⟩ := List.mem_map.mp hkv
          rw [← zip_take_len_left] at hop
          have : op.1 ∈ ordering.take positions.length :=
            (List.of_mem_zip hop).1
          exact fun hc => hnotin (hc ▸ this)
        rw [hdnone]
        rfl
      rw [mapMO_eq_none _ _ (positions.length - 1)
        (List.mem_range.mpr (by omega)) hfail]
      rfl

/-- C5 witness: the amended theorem applied at ordering `("a", "b")`:
three position values are accepted, one position value crashes the
builder (dict `KeyError`), never `InvalidCursor`. -/
theorem position_count_mismatch_behavior_witness :
    (build_boundary_filter [['a'], ['b']] false [5, 10, 15]).isSome =
      true ∧
    build_boundary_filter [['a'], ['b']] false [5] = none :=
  ⟨(position_count_mismatch_behavior [['a'], ['b']] false [5, 10, 15]
      (by decide) (by decide)).1 (by decide),
   (position_count_mismatch_behavior [['a'], ['b']] false [5]
      (by decide) (by decide)).2 (by decide)⟩

/-! ## Numeric / JSON string helpers (`str(int)`, `json.dumps`) -/

def digitChar : Nat → Char
  | 0 => '0' | 1 => '1' | 2 => '2' | 3 => '3' | 4 => '4'
  | 5 => '5' | 6 => '6' | 7 => '7' | 8 => '8' | _ => '9'

def hexLower : Nat → Char
  | 0 => '0' | 1 => '1' | 2 => '2' | 3 => '3' | 4 => '4'
  | 5 => '5' | 6 => '6' | 7 => '7' | 8 => '8' | 9 => '9'
  | 10 => 'a' | 11 => 'b' | 12 => 'c' | 13 => 'd' | 14 => 'e' | _ => 'f'

def hexUpper : Nat → Char
  | 0 => '0' | 1 => '1' | 2 => '2' | 3 => '3' | 4 => '4'
  | 5 => '5' | 6 => '6' | 7 => '7' | 8 => '8' | 9 => '9'
  | 10 => 'A' | 11 => 'B' | 12 => 'C' | 13 => 'D' | 14 => 'E' | _ => 'F'

/-- Little-endian decimal digits of a positive natural, fueled (the
value of each division step is at most the fuel left). -/
def natDigitsRevFuel : Nat → Nat → List Char
  | 0, _ => []
  | _, 0 => []
  | fuel + 1, n + 1 =>
    digitChar ((n + 1) % 10) :: natDigitsRevFuel fuel ((n + 1) / 10)

def natDigitsRev (n : Nat) : List Char := natDigitsRevFuel n n

/-- Python `str` of a non-negative integer. -/
def pyStrOfNat (n : Nat) : PyStr :=
  if n = 0 then ['0'] else (natDigitsRev n).reverse

/-- Python `str` of an integer. -/
def pyStrOfInt (i : Int) : PyStr :=
  if i < 0 then '-' :: pyStrOfNat i.natAbs else pyStrOfNat i.natAbs

/-- One character of a JSON string under `json.dumps` defaults
(`ensure_ascii=True`): `"` and `\` escaped, the named control escapes,
`\uXXXX` for other controls and for all non-ASCII (with surrogate
pairs above `U+FFFF`). -/
def jsonEscapeChar (c : Char) : PyStr :=
  let n := c.toNat
  if c == '"' then ['\\', '"']
  else if c == '\\' then ['\\', '\\']
  else if n == 8 then ['\\', 'b']
  else if n == 9 then ['\\', 't']
  else if n == 10 then ['\\', 'n']
  else if n == 12 then ['\\', 'f']
  else if n == 13 then ['\\', 'r']
  else if n < 32 then ['\\', 'u', '0', '0', hexLower (n / 16), hexLower (n % 16)]
  else if n < 127 then [c]
  else if n < 65536 then
    ['\\', 'u', hexLower (n / 4096 % 16), hexLower (n / 256 % 16),
      hexLower (n / 16 % 16), hexLower (n % 16)]
  else
    let m := n - 65536
    let hi := 55296 + m / 1024
    let lo := 56320 + m % 1024
    ['\\', 'u', hexLower (hi / 4096 % 16), hexLower (hi / 256 % 16),
      hexLower (hi / 16 % 16), hexLower (hi % 16),
     '\\', 'u', hexLower (lo / 4096 % 16), hexLower (lo / 256 % 16),
      hexLower (lo / 16 % 16), hexLower (lo % 16)]

/-- A JSON string literal. -/
def jsonQuoteStr (s : PyStr) : PyStr :=
  '"' :: s.flatMap jsonEscapeChar ++ ['"']

/-- `json.dumps` of a list of strings (default separators `", "`). -/
def jsonDumpsStrList (l : List PyStr) : PyStr :=
  '[' :: List.intercalate [',', ' '] (l.map jsonQuoteStr) ++ [']']

/-! ## The page windower (claim C4)

`paginate_queryset`, lines 162–176: slice the ordered, filtered scan to
`[offset, offset + page_size + 1)`, truncate to `page_size`, and derive
the following position from the extra row when one came back. -/

/-- `_get_position_from_instance`: string-coerce each ordering field
value of the row and JSON-serialize the list, in ordering order. -/
def _get_position_from_instance (inst : Row)
    (ordering : List PyStr) : PyStr :=
  jsonDumpsStrList (ordering.map fun o => pyStrOfInt (inst (lstripDash o)))

/-- `results = list(queryset[offset : offset + page_size + 1])`. -/
def window_results (scan : List Row) (offset page_size : Nat) :
    List Row :=
  (scan.drop offset).take (page_size + 1)

/-- `self.page = list(results[: page_size])`. -/
def window_page (scan : List Row) (offset page_size : Nat) : List Row :=
  (window_results scan offset page_size).take page_size

/-- `len(results) > len(self.page)`. -/
def window_has_following (scan : List Row) (offset page_size : Nat) :
    Bool :=
  decide ((window_results scan offset page_size).length >
    (window_page scan offset page_size).length)

/-- `following_position = self._get_position_from_instance(results[-1],
self.ordering)` when there is an extra row, `None` otherwise;
`results[-1]` on an empty list (`IndexError`, unreachable under the
guard) is modelled as `none`. -/
def window_following_position (scan : List Row) (offset page_size : Nat)
    (ordering : List PyStr) : Option PyStr :=
  if (window_results scan offset page_size).length >
      (window_page scan offset page_size).length then
    match (window_results scan offset page_size).getLast? with
    | some r => some (_get_position_from_instance r ordering)
    | none => none
  else none

/-- C4: for every scan, cursor offset `k` and page size `s > 0`, the
windower materializes exactly the window `[k, k + s + 1)`, returns the
first `s` of those rows as the page (so at most `s` rows), and exactly
when more than `s` rows came back the discarded extra row — the row at
index `k + s` of the scan — yields the following position
(string-coerced, JSON-serialized in ordering order). -/
theorem paginate_window_spec (scan : List Row) (offset page_size : Nat)
    (ordering : List PyStr) (hs : 0 < page_size) :
    window_results scan offset page_size =
      (scan.drop offset).take (page_size + 1) ∧
    window_page scan offset page_size =
      (scan.drop offset).take page_size ∧
    (window_page scan offset page_size).length ≤ page_size ∧
    (window_has_following scan offset page_size = true ↔
      offset + page_size < scan.length) ∧
    (offset + page_size < scan.length →
      window_following_position scan offset page_size ordering =
        some (_get_position_from_instance
          (scan.getD (offset + page_size) fun _ => 0) ordering)) ∧
    (¬ offset + page_size < scan.length →
      window_following_position scan offset page_size ordering =
        none) := by
  have hlenres : (window_results scan offset page_size).length =
      min (page_size + 1) (scan.length - offset) := by
    simp [window_results]
  have hpage : window_page scan offset page_size =
      (scan.drop offset).take page_size := by
    unfold window_page window_results
    rw [List.take_take]
    congr 1
    omega
  have hplen : (window_page scan offset page_size).length ≤ page_size := by
    unfold window_page
    simp only [List.length_take]
    omega
  have hplen2 : (window_page scan offset page_size).length =
      min page_size (window_results scan offset page_size).length := by
    unfold window_page
    simp [List.length_take]
  have hcond : ((window_results scan offset page_size).length >
      (window_page scan offset page_size).length) ↔
      offset + page_size < scan.length := by
    rw [hplen2, hlenres]
    omega
  refine ⟨rfl, hpage, hplen, by simp [window_has_following, hcond], ?_, ?_⟩
  · intro hc
    have hlast : (window_results scan offset page_size).getLast? =
        some (scan.getD (offset + page_size) fun _ => 0) := by
      rw [List.getLast?_eq_getElem?, hlenres]
      have hidx : min (page_size + 1) (scan.length - offset) - 1 =
          page_size := by omega
      rw [hidx]
      unfold window_results
      rw [List.getElem?_take, if_pos (by omega), List.getElem?_drop,
        List.getElem?_eq_getElem (by omega),
        List.getD_eq_getElem _ _ (by omega)]
    unfold window_following_position
    rw [if_pos (hcond.mpr hc), hlast]
  · intro hc
    unfold window_following_position
    rw [if_neg (fun h => hc (hcond.mp h))]

/-- C4 witness: the windowing facts at a concrete 3-row scan,
`offset = 0`, `page_size = 1`. -/
theorem paginate_window_spec_witness :
    0 < 1 ∧
    (window_results [fun _ => (1 : Int), fun _ => 2, fun _ => 3] 0 1 =
      (([fun _ => (1 : Int), fun _ => 2, fun _ => 3] :
        List Row).drop 0).take 2 ∧
    window_page [fun _ => (1 : Int), fun _ => 2, fun _ => 3] 0 1 =
      (([fun _ => (1 : Int), fun _ => 2, fun _ => 3] :
        List Row).drop 0).take 1 ∧
    (window_page [fun _ => (1 : Int), fun _ => 2, fun _ => 3] 0 1).length
      ≤ 1 ∧
    (window_has_following [fun _ => (1 : Int), fun _ => 2, fun _ => 3]
      0 1 = true ↔ 0 + 1 <
        ([fun _ => (1 : Int), fun _ => 2, fun _ => 3] :
          List Row).length) ∧
    (0 + 1 < ([fun _ => (1 : Int), fun _ => 2, fun _ => 3] :
        List Row).length →
      window_following_position
        [fun _ => (1 : Int), fun _ => 2, fun _ => 3] 0 1 [['i', 'd']] =
        some (_get_position_from_instance
          (([fun _ => (1 : Int), fun _ => 2, fun _ => 3] :
            List Row).getD (0 + 1) fun _ => 0) [['i', 'd']])) ∧
    (¬ 0 + 1 < ([fun _ => (1 : Int), fun _ => 2, fun _ => 3] :
        List Row).length →
      window_following_position
        [fun _ => (1 : Int), fun _ => 2, fun _ => 3] 0 1 [['i', 'd']] =
        none)) :=
  ⟨by decide,
    paginate_window_spec [fun _ => (1 : Int), fun _ => 2, fun _ => 3]
      0 1 [['i', 'd']] (by decide)⟩

/-! ## The cursor codec (claims C2, C8, C9)

`encode_cursor` / `decode_cursor`: a querystring of at most three keys,
base64 over its ASCII bytes.  Bytes are `Nat`s; `str.encode("ascii")` /
`bytes.decode("ascii")`, `base64.b64encode` / `b64decode`
(`validate=False`), `urllib.parse.urlencode` (`quote_plus`) /
`parse_qs` (`unquote_plus`, UTF-8 with replacement) and `int(str)` are
each modelled below.  `int()` follows CPython's transform-to-ASCII
pass: Unicode decimal digits (category Nd, Unicode 14.0 as shipped
with CPython 3.11) and Unicode whitespace are accepted.  Known model
restrictions: lone surrogates are unrepresentable (`Char` is a unicode
scalar value), and the replacement-character granularity of lenient
UTF-8 decoding is per-byte — immaterial to parse and failure behavior,
since the replacement character U+FFFD is produced on exactly the same
inputs (never a digit, separator or key character) and only its
repetition count can differ. -/

/-- `str.encode("ascii")`: fails (`UnicodeEncodeError`, a `ValueError`)
on any non-ASCII character. -/
def asciiEncode (s : PyStr) : Option (List Nat) :=
  if s.all (fun c => c.toNat < 128) then some (s.map Char.toNat) else none

/-- `bytes.decode("ascii")`. -/
def asciiDecode (bs : List Nat) : Option PyStr :=
  if bs.all (· < 128) then some (bs.map Char.ofNat) else none

/-- The standard base64 alphabet, as bytes. -/
def b64alphabet : List Nat :=
  "ABCDEFGHIJKLMNOPQRSTUVWXYZabcdefghijklmnopqrstuvwxyz0123456789+/"
    |>.toList.map Char.toNat

/-- Byte of the base64 digit `d` (`d < 64`). -/
def b64chr (d : Nat) : Nat := b64alphabet.getD d 0

/-- `base64.b64encode`, with `=` (byte 61) padding. -/
def b64encodeBytes : List Nat → List Nat
  | b1 :: b2 :: b3 :: rest =>
    b64chr (b1 / 4) :: b64chr ((b1 % 4) * 16 + b2 / 16) ::
      b64chr ((b2 % 16) * 4 + b3 / 64) :: b64chr (b3 % 64) ::
      b64encodeBytes rest
  | [b1, b2] =>
    [b64chr (b1 / 4), b64chr ((b1 % 4) * 16 + b2 / 16),
      b64chr ((b2 % 16) * 4), 61]
  | [b1] => [b64chr (b1 / 4), b64chr ((b1 % 4) * 16), 61, 61]
  | [] => []

/-- Inverse base64 digit lookup. -/
def b64invDigit (b : Nat) : Option Nat :=
  if b ∈ b64alphabet then some (b64alphabet.indexOf b) else none

/-- The decode loop of `binascii.a2b_base64(·, strict_mode=False)` —
the call `base64.b64decode(·, validate=False)` makes.  `quad_pos`
counts the data characters of the current quantum, `pads` the pad
characters seen while `quad_pos ≥ 2`, `leftchar` holds the pending
bits; each output byte is emitted as soon as it is complete.  A pad
that completes a quantum (`quad_pos ≥ 2` and `quad_pos + pads + 1 ≥ 4`)
stops decoding and ignores all further input; pads in other positions
and non-alphabet characters are skipped; input that ends mid-quantum
raises `binascii.Error` (a `ValueError`), modeled as `none`. -/
def a2bLoop : List Nat → Nat → Nat → Nat → Option (List Nat)
  | [], quad_pos, _, _ => if quad_pos = 0 then some [] else none
  | b :: rest, quad_pos, pads, leftchar =>
    if b == 61 then
      if 2 ≤ quad_pos ∧ 4 ≤ quad_pos + (pads + 1) then some []
      else a2bLoop rest quad_pos
        (if 2 ≤ quad_pos then pads + 1 else pads) leftchar
    else
      match b64invDigit b with
      | none => a2bLoop rest quad_pos pads leftchar
      | some d =>
        match quad_pos with
        | 0 => a2bLoop rest 1 0 d
        | 1 => (a2bLoop rest 2 0 (d % 16)).map
            fun tail => (leftchar * 4 + d / 16) :: tail
        | 2 => (a2bLoop rest 3 0 (d % 4)).map
            fun tail => (leftchar * 16 + d / 4) :: tail
        | _ + 3 => (a2bLoop rest 0 0 0).map
            fun tail => (leftchar * 64 + d) :: tail

/-- `base64.b64decode(·, validate=False)`. -/
def b64decodeModel (bs : List Nat) : Option (List Nat) :=
  a2bLoop bs 0 0 0

/-- UTF-8 encoding of one unicode scalar value. -/
def utf8EncodeChar (c : Char) : List Nat :=
  let n := c.toNat
  if n < 128 then [n]
  else if n < 2048 then [192 + n / 64, 128 + n % 64]
  else if n < 65536 then
    [224 + n / 4096, 128 + n / 64 % 64, 128 + n % 64]
  else
    [240 + n / 262144, 128 + n / 4096 % 64, 128 + n / 64 % 64,
      128 + n % 64]

/-- `str.encode("utf-8")`. -/
def utf8Encode (s : PyStr) : List Nat := s.flatMap utf8EncodeChar

/-- A UTF-8 continuation byte. -/
def isContB (b : Nat) : Prop := 128 ≤ b ∧ b ≤ 191

instance (b : Nat) : Decidable (isContB b) := by
  unfold isContB
  infer_instance

/-- Lenient UTF-8 decoding (`errors="replace"`): strict range checks
(overlongs and surrogates rejected), one `U+FFFD` per offending byte.
Fueled by the byte count (every step consumes at least one byte). -/
def utf8DecodeFuel : Nat → List Nat → PyStr
  | 0, _ => []
  | _ + 1, [] => []
  | fuel + 1, b1 :: rest =>
    if b1 < 128 then Char.ofNat b1 :: utf8DecodeFuel fuel rest
    else if 194 ≤ b1 ∧ b1 ≤ 223 then
      match rest with
      | b2 :: rest2 =>
        if isContB b2 then
          Char.ofNat ((b1 - 192) * 64 + (b2 - 128)) ::
            utf8DecodeFuel fuel rest2
        else Char.ofNat 65533 :: utf8DecodeFuel fuel (b2 :: rest2)
      | [] => [Char.ofNat 65533]
    else if 224 ≤ b1 ∧ b1 ≤ 239 then
      match rest with
      | b2 :: b3 :: rest3 =>
        if isContB b2 ∧ isContB b3 ∧ (b1 = 224 → 160 ≤ b2) ∧
            (b1 = 237 → b2 ≤ 159) then
          Char.ofNat ((b1 - 224) * 4096 + (b2 - 128) * 64 + (b3 - 128)) ::
            utf8DecodeFuel fuel rest3
        else Char.ofNat 65533 :: utf8DecodeFuel fuel (b2 :: b3 :: rest3)
      | other => Char.ofNat 65533 :: utf8DecodeFuel fuel other
    else if 240 ≤ b1 ∧ b1 ≤ 244 then
      match rest with
      | b2 :: b3 :: b4 :: rest4 =>
        if isContB b2 ∧ isContB b3 ∧ isContB b4 ∧
            (b1 = 240 → 144 ≤ b2) ∧ (b1 = 244 → b2 ≤ 143) then
          Char.ofNat ((b1 - 240) * 262144 + (b2 - 128) * 4096 +
            (b3 - 128) * 64 + (b4 - 128)) :: utf8DecodeFuel fuel rest4
        else Char.ofNat 65533 ::
          utf8DecodeFuel fuel (b2 :: b3 :: b4 :: rest4)
      | other => Char.ofNat 65533 :: utf8DecodeFuel fuel other
    else Char.ofNat 65533 :: utf8DecodeFuel fuel rest

def utf8Decode (l : List Nat) : PyStr := utf8DecodeFuel l.length l

/-- The bytes never percent-encoded by `urllib.parse.quote`:
`ALPHA / DIGIT / "_" / "." / "-" / "~"`. -/
def alwaysSafeByte (b : Nat) : Bool :=
  (48 ≤ b && b ≤ 57) || (65 ≤ b && b ≤ 90) || (97 ≤ b && b ≤ 122) ||
    b == 95 || b == 46 || b == 45 || b == 126

/-- `quote` of one UTF-8 byte (`safe=''`). -/
def quoteByte (b : Nat) : PyStr :=
  if alwaysSafeByte b then [Char.ofNat b]
  else ['%', hexUpper (b / 16), hexUpper (b % 16)]

/-- `urllib.parse.quote_plus(s, safe='')`: UTF-8 encode, keep safe
bytes, map space to `+`, percent-encode the rest. -/
def quote_plus (s : PyStr) : PyStr :=
  (utf8Encode s).flatMap fun b => if b == 32 then ['+'] else quoteByte b

/-- The `+`-to-space pass of `unquote_plus`. -/
def plusToSpace (s : PyStr) : PyStr :=
  s.map fun c => if c == '+' then ' ' else c

/-- `_hextobyte`'s digit table (both cases accepted). -/
def hexVal (c : Char) : Option Nat :=
  if '0' ≤ c && c ≤ '9' then some (c.toNat - 48)
  else if 'A' ≤ c && c ≤ 'F' then some (c.toNat - 55)
  else if 'a' ≤ c && c ≤ 'f' then some (c.toNat - 87)
  else none

/-- `_unquote_impl` on one all-ASCII chunk: literal characters become
their bytes, a `%` followed by two hex digits becomes that byte, an
invalid `%` stays as byte 37. -/
def unquoteAsciiChunkFuel : Nat → PyStr → List Nat
  | 0, _ => []
  | _ + 1, [] => []
  | fuel + 1, c :: rest =>
    if c == '%' then
      match rest with
      | c1 :: c2 :: rest2 =>
        match hexVal c1, hexVal c2 with
        | some h1, some h2 =>
          (h1 * 16 + h2) :: unquoteAsciiChunkFuel fuel rest2
        | _, _ => 37 :: unquoteAsciiChunkFuel fuel (c1 :: c2 :: rest2)
      | other => 37 :: unquoteAsciiChunkFuel fuel other
    else c.toNat :: unquoteAsciiChunkFuel fuel rest

def unquoteAsciiChunk (s : PyStr) : List Nat :=
  unquoteAsciiChunkFuel s.length s

/-- Maximal prefix of the given ASCII-ness, and the remainder. -/
def takeRun (ascii : Bool) : PyStr → PyStr × PyStr
  | [] => ([], [])
  | c :: rest =>
    if (decide (c.toNat < 128)) == ascii then
      ((c :: (takeRun ascii rest).1), (takeRun ascii rest).2)
    else ([], c :: rest)

/-- `urllib.parse.unquote` (UTF-8, `errors="replace"`): split the
string into maximal ASCII / non-ASCII runs; percent-decode each ASCII
run to bytes and UTF-8-decode it; non-ASCII runs pass through.  Fueled
by the string length (the remainder of a run is strictly shorter). -/
def unquoteFuel : Nat → PyStr → PyStr
  | 0, _ => []
  | _, [] => []
  | fuel + 1, c :: rest =>
    let ascii := decide (c.toNat < 128)
    (if ascii then
      utf8Decode (unquoteAsciiChunk (c :: (takeRun ascii rest).1))
    else c :: (takeRun ascii rest).1) ++
      unquoteFuel fuel (takeRun ascii rest).2

def unquote (s : PyStr) : PyStr := unquoteFuel s.length s

/-- `urllib.parse.unquote_plus`. -/
def unquote_plus (s : PyStr) : PyStr := unquote (plusToSpace s)

/-- Python `str.split(sep)` for a one-character separator. -/
def pySplitChar (sep : Char) : PyStr → List PyStr
  | [] => [[]]
  | c :: rest =>
    match pySplitChar sep rest with
    | [] => [[]]
    | h :: t => if c == sep then [] :: h :: t else (c :: h) :: t

/-- `urllib.parse.parse_qsl(qs, keep_blank_values=True)`: split on
`&`, skip empty chunks, split each on the first `=` (a chunk without
`=` keeps a blank value), `unquote_plus` names and values. -/
def parse_qsl (qs : PyStr) : List (PyStr × PyStr) :=
  (pySplitChar '&' qs).filterMap fun nv =>
    if nv.isEmpty then none
    else
      let i := nv.findIdx (· == '=')
      if i = nv.length then some (unquote_plus nv, unquote_plus [])
      else some (unquote_plus (nv.take i), unquote_plus (nv.drop (i + 1)))

/-- `parse_qs`: group `parse_qsl` pairs into a dict of value lists
(append to an existing key's list, else insert). -/
def dictAppend (d : List (PyStr × List PyStr)) (k : PyStr) (v : PyStr) :
    List (PyStr × List PyStr) :=
  if d.any fun kv => kv.1 == k then
    d.map fun kv => if kv.1 == k then (kv.1, kv.2 ++ [v]) else kv
  else d ++ [(k, [v])]

def parse_qs (qs : PyStr) : List (PyStr × List PyStr) :=
  (parse_qsl qs).foldl (fun d kv => dictAppend d kv.1 kv.2) []

/-- The whitespace `PyLong_FromString` strips around the literal
(ASCII `Py_ISSPACE`); it runs after the transform-to-ASCII pass, which
has already turned Unicode whitespace into plain spaces. -/
def isPyWhitespace (c : Char) : Bool :=
  c == ' ' || c == '\t' || c == '\n' || c == '\r' ||
    c.toNat == 11 || c.toNat == 12

def stripPyWs (s : PyStr) : PyStr :=
  ((s.dropWhile isPyWhitespace).reverse.dropWhile isPyWhitespace).reverse

def digitVal (c : Char) : Option Nat :=
  if '0' ≤ c && c ≤ '9' then some (c.toNat - 48) else none

/-- Digits of an integer literal after the first, allowing single
underscores between digits (`after_underscore` tracks a pending `_`,
which must be followed by a digit and cannot end the literal). -/
def parseDigitsGo (acc : Nat) (after_underscore : Bool) :
    PyStr → Option Nat
  | [] => if after_underscore then none else some acc
  | c :: rest =>
    if c == '_' then
      if after_underscore then none else parseDigitsGo acc true rest
    else do
      let d ← digitVal c
      parseDigitsGo (acc * 10 + d) false rest

def parseDigits : PyStr → Option Nat
  | [] => none
  | c :: rest => do
    let d ← digitVal c
    parseDigitsGo d false rest

/-- The ASCII integer-literal parse (`PyLong_FromString`, base 10):
optional surrounding whitespace, optional sign, a non-empty digit
sequence with single underscores between digits. -/
def pyIntAscii (s : PyStr) : Option Int :=
  match stripPyWs s with
  | [] => none
  | c :: rest =>
    if c == '+' then (parseDigits rest).map fun n => (n : Int)
    else if c == '-' then (parseDigits rest).map fun n => -(n : Int)
    else (parseDigits (c :: rest)).map fun n => (n : Int)

/-- `Py_UNICODE_ISSPACE` restricted to code points ≥ 128 (the
transform-to-ASCII pass checks `ch < 127` first, so only these reach
the space test there): NEL, NBSP, OGHAM SPACE MARK, the U+2000–200A
spaces, LINE/PARAGRAPH SEPARATOR, NARROW NBSP, MEDIUM MATHEMATICAL
SPACE and IDEOGRAPHIC SPACE. -/
def isUnicodeSpace (c : Char) : Bool :=
  c.toNat == 0x85 || c.toNat == 0xA0 || c.toNat == 0x1680 ||
    (0x2000 ≤ c.toNat && c.toNat ≤ 0x200A) || c.toNat == 0x2028 ||
    c.toNat == 0x2029 || c.toNat == 0x202F || c.toNat == 0x205F ||
    c.toNat == 0x3000

/-- First code points of the runs of ten consecutive Unicode decimal
digits (category Nd), Unicode 14.0 — the table behind
`Py_UNICODE_TODECIMAL` in CPython 3.11. -/
def ndStarts : List Nat :=
  [0x30, 0x660, 0x6F0, 0x7C0, 0x966, 0x9E6, 0xA66, 0xAE6, 0xB66,
   0xBE6, 0xC66, 0xCE6, 0xD66, 0xDE6, 0xE50, 0xED0, 0xF20, 0x1040,
   0x1090, 0x17E0, 0x1810, 0x1946, 0x19D0, 0x1A80, 0x1A90, 0x1B50,
   0x1BB0, 0x1C40, 0x1C50, 0xA620, 0xA8D0, 0xA900, 0xA9D0, 0xA9F0,
   0xAA50, 0xABF0, 0xFF10, 0x104A0, 0x10D30, 0x11066, 0x110F0,
   0x11136, 0x111D0, 0x112F0, 0x11450, 0x114D0, 0x11650, 0x116C0,
   0x11730, 0x118E0, 0x11950, 0x11C50, 0x11D50, 0x11DA0, 0x16A60,
   0x16AC0, 0x16B50, 0x1D7CE, 0x1D7D8, 0x1D7E2, 0x1D7EC, 0x1D7F6,
   0x1E140, 0x1E2F0, 0x1E950, 0x1FBF0]

/-- `Py_UNICODE_TODECIMAL`: the decimal value of a Unicode decimal
digit (each Nd run is ten consecutive code points valued 0–9). -/
def unicodeDecimal (c : Char) : Option Nat :=
  match ndStarts.find? fun s => s ≤ c.toNat && c.toNat < s + 10 with
  | some s => some (c.toNat - s)
  | none => none

/-- `_PyUnicode_TransformDecimalAndSpaceToASCII`, run by `int(str)`
before the ASCII parse: a char below 127 is kept, Unicode whitespace
becomes a space, a Unicode decimal digit becomes the ASCII digit of
its value, and any other char becomes `?` and truncates the string
(which makes the subsequent parse fail). -/
def transformDecimal : PyStr → PyStr
  | [] => []
  | c :: rest =>
    if c.toNat < 127 then c :: transformDecimal rest
    else if isUnicodeSpace c then ' ' :: transformDecimal rest
    else
      match unicodeDecimal c with
      | some d => digitChar d :: transformDecimal rest
      | none => ['?']

/-- Python `int(str)`: the transform-to-ASCII pass followed by the
ASCII integer-literal parse. -/
def pyInt (s : PyStr) : Option Int := pyIntAscii (transformDecimal s)

/-- `_positive_int(integer_string, strict=False, cutoff)`: rejects
negatives, clamps to `cutoff` — but only when `cutoff` is truthy
(`cutoff = 0`, like `None`, disables clamping). -/
def _positive_int (integer_string : PyStr) (cutoff : Nat) :
    Option Nat := do
  let ret ← pyInt integer_string
  if ret < 0 then none
  else if cutoff ≠ 0 then pure (min ret.toNat cutoff)
  else pure ret.toNat

/-- The pagination cursor. -/
structure Cursor where
  offset : Nat
  reverse : Bool
  position : Option PyStr
deriving DecidableEq

/-- `b64decode(encoded.encode("ascii")).decode("ascii")`. -/
def token_querystring (encoded : PyStr) : Option PyStr := do
  let encBytes ← asciiEncode encoded
  let qsBytes ← b64decodeModel encBytes
  asciiDecode qsBytes

/-- `tokens.get("o", ["0"])[0]`. -/
def qs_offset_raw (querystring : PyStr) : Option PyStr :=
  ((dictGet (parse_qs querystring) ['o']).getD [['0']]).head?

/-- `tokens.get("r", ["0"])[0]`. -/
def qs_reverse_raw (querystring : PyStr) : Option PyStr :=
  ((dictGet (parse_qs querystring) ['r']).getD [['0']]).head?

/-- `decode_cursor` (given a present token value), parameterized by the
configured `offset_cutoff`; `none` models `raise NotFound`
(`InvalidCursor`). -/
def decode_cursor (encoded : PyStr) (offset_cutoff : Nat) :
    Option Cursor := do
  let querystring ← token_querystring encoded
  let offsetStr ← qs_offset_raw querystring
  let offset ← _positive_int offsetStr offset_cutoff
  let reverseStr ← qs_reverse_raw querystring
  let reverseInt ← pyInt reverseStr
  -- reverse = bool(int(...)): any nonzero integer is truthy
  let reverse := reverseInt != 0
  -- position = tokens.get("p", [None])[0]
  let position := match dictGet (parse_qs querystring) ['p'] with
    | some vs => vs.head?
    | none => none
  pure { offset := offset, reverse := reverse, position := position }

/-- Python `"&".join`. -/
def ampJoin : List PyStr → PyStr
  | [] => []
  | [x] => x
  | x :: xs => x ++ '&' :: ampJoin xs

/-- `urllib.parse.urlencode` over string-valued pairs
(`quote_via=quote_plus`). -/
def urlencodePairs (tokens : List (PyStr × PyStr)) : PyStr :=
  ampJoin (tokens.map fun kv => quote_plus kv.1 ++ '=' :: quote_plus kv.2)

/-- `encode_cursor`: the token dict (insertion order `o`, `r`, `p`,
each omitted at its default), urlencoded then base64 over ASCII.  The
source then splices the token into the page URL
(`replace_query_param`), which is out-of-scope HTTP plumbing; the
token itself is returned here. -/
def encode_cursor (cursor : Cursor) : Option PyStr := do
  let tokens : List (PyStr × PyStr) :=
    (if cursor.offset ≠ 0 then [(['o'], pyStrOfNat cursor.offset)]
     else []) ++
    (if cursor.reverse then [(['r'], ['1'])] else []) ++
    (match cursor.position with
     | some p => [(['p'], p)]
     | none => [])
  let querystring := urlencodePairs tokens
  let qsBytes ← asciiEncode querystring
  asciiDecode (b64encodeBytes qsBytes)

/-! ## Base64 roundtrip -/

theorem b64invDigit_chr : ∀ d < 64, b64invDigit (b64chr d) = some d := by
  decide

theorem b64chr_ne_61 : ∀ d < 64, (b64chr d == 61) = false := by decide

theorem b64chr_lt_128 : ∀ d < 64, b64chr d < 128 := by decide

theorem b64encode_lt_128 (bs : List Nat) (h : ∀ b ∈ bs, b < 256) :
    ∀ c ∈ b64encodeBytes bs, c < 128 := by
  induction bs using b64encodeBytes.induct with
  | case1 b1 b2 b3 rest ih =>
    have h1 := h b1 (by simp)
    have h2 := h b2 (by simp)
    have h3 := h b3 (by simp)
    intro c hc
    rw [b64encodeBytes] at hc
    simp only [List.mem_cons] at hc
    rcases hc with rfl | rfl | rfl | rfl | hc
    · exact b64chr_lt_128 _ (by omega)
    · exact b64chr_lt_128 _ (by omega)
    · exact b64chr_lt_128 _ (by omega)
    · exact b64chr_lt_128 _ (by omega)
    · exact ih (fun b hb => h b (by simp [hb])) c hc
  | case2 b1 b2 =>
    have h1 := h b1 (by simp)
    have h2 := h b2 (by simp)
    intro c hc
    rw [b64encodeBytes] at hc
    simp only [List.mem_cons] at hc
    rcases hc with rfl | rfl | rfl | rfl | h0
    · exact b64chr_lt_128 _ (by omega)
    · exact b64chr_lt_128 _ (by omega)
    · exact b64chr_lt_128 _ (by omega)
    · omega
    · exact absurd h0 (List.not_mem_nil c)
  | case3 b1 =>
    have h1 := h b1 (by simp)
    intro c hc
    rw [b64encodeBytes] at hc
    simp only [List.mem_cons] at hc
    rcases hc with rfl | rfl | rfl | rfl | h0
    · exact b64chr_lt_128 _ (by omega)
    · exact b64chr_lt_128 _ (by omega)
    · omega
    · omega
    · exact absurd h0 (List.not_mem_nil c)
  | case4 =>
    intro c hc
    simp [b64encodeBytes] at hc

theorem b64invDigit_mem (b d : Nat) (h : b64invDigit b = some d) :
    b ∈ b64alphabet := by
  unfold b64invDigit at h
  by_cases hm : b ∈ b64alphabet
  · exact hm
  · rw [if_neg hm] at h
    exact absurd h (by simp)

theorem b64invDigit_ne_61 (b d : Nat) (h : b64invDigit b = some d) :
    (b == 61) = false := by
  have hm := b64invDigit_mem b d h
  have : b ≠ 61 := by
    intro hb
    subst hb
    revert hm
    decide
  simp [this]

theorem a2b_step0 (b d : Nat) (rest : List Nat) (pads lc : Nat)
    (hb : b64invDigit b = some d) :
    a2bLoop (b :: rest) 0 pads lc = a2bLoop rest 1 0 d := by
  have hne := b64invDigit_ne_61 b d hb
  rw [a2bLoop.eq_2, if_neg (by simp [hne]), hb]

theorem a2b_step1 (b d : Nat) (rest : List Nat) (pads lc : Nat)
    (hb : b64invDigit b = some d) :
    a2bLoop (b :: rest) 1 pads lc = (a2bLoop rest 2 0 (d % 16)).map
      fun tail => (lc * 4 + d / 16) :: tail := by
  have hne := b64invDigit_ne_61 b d hb
  rw [a2bLoop.eq_2, if_neg (by simp [hne]), hb]

theorem a2b_step2 (b d : Nat) (rest : List Nat) (pads lc : Nat)
    (hb : b64invDigit b = some d) :
    a2bLoop (b :: rest) 2 pads lc = (a2bLoop rest 3 0 (d % 4)).map
      fun tail => (lc * 16 + d / 4) :: tail := by
  have hne := b64invDigit_ne_61 b d hb
  rw [a2bLoop.eq_2, if_neg (by simp [hne]), hb]

theorem a2b_step3 (b d : Nat) (rest : List Nat) (pads lc : Nat)
    (hb : b64invDigit b = some d) :
    a2bLoop (b :: rest) 3 pads lc = (a2bLoop rest 0 0 0).map
      fun tail => (lc * 64 + d) :: tail := by
  have hne := b64invDigit_ne_61 b d hb
  rw [a2bLoop.eq_2, if_neg (by simp [hne]), hb]

theorem a2b_encode (bs : List Nat) (h : ∀ b ∈ bs, b < 256) :
    a2bLoop (b64encodeBytes bs) 0 0 0 = some bs := by
  induction bs using b64encodeBytes.induct with
  | case1 b1 b2 b3 rest ih =>
    have h1 := h b1 (by simp)
    have h2 := h b2 (by simp)
    have h3 := h b3 (by simp)
    rw [b64encodeBytes]
    rw [a2b_step0 _ _ _ _ _ (b64invDigit_chr _ (by omega)),
      a2b_step1 _ _ _ _ _ (b64invDigit_chr _ (by omega)),
      a2b_step2 _ _ _ _ _ (b64invDigit_chr _ (by omega)),
      a2b_step3 _ _ _ _ _ (b64invDigit_chr _ (by omega))]
    rw [ih (fun b hb => h b (by simp [hb]))]
    simp only [Option.map_some']
    congr 1
    have e1 : b1 / 4 * 4 + ((b1 % 4) * 16 + b2 / 16) / 16 = b1 := by
      omega
    have e2 : ((b1 % 4) * 16 + b2 / 16) % 16 * 16 +
        ((b2 % 16) * 4 + b3 / 64) / 4 = b2 := by omega
    have e3 : ((b2 % 16) * 4 + b3 / 64) % 4 * 64 + b3 % 64 = b3 := by
      omega
    rw [e1, e2, e3]
  | case2 b1 b2 =>
    have h1 := h b1 (by simp)
    have h2 := h b2 (by simp)
    rw [b64encodeBytes]
    rw [a2b_step0 _ _ _ _ _ (b64invDigit_chr _ (by omega)),
      a2b_step1 _ _ _ _ _ (b64invDigit_chr _ (by omega)),
      a2b_step2 _ _ _ _ _ (b64invDigit_chr _ (by omega))]
    show ((a2bLoop [61] 3 0 _).map _).map _ = _
    rw [show ∀ lc : Nat, a2bLoop [61] 3 0 lc = some [] from
      fun lc => rfl]
    simp only [Option.map_some']
    congr 1
    have e1 : b1 / 4 * 4 + ((b1 % 4) * 16 + b2 / 16) / 16 = b1 := by
      omega
    have e2 : ((b1 % 4) * 16 + b2 / 16) % 16 * 16 + (b2 % 16) * 4 / 4 =
        b2 := by omega
    rw [e1, e2]
  | case3 b1 =>
    have h1 := h b1 (by simp)
    rw [b64encodeBytes]
    rw [a2b_step0 _ _ _ _ _ (b64invDigit_chr _ (by omega)),
      a2b_step1 _ _ _ _ _ (b64invDigit_chr _ (by omega))]
    rw [show ∀ lc : Nat, a2bLoop [61, 61] 2 0 lc = some [] from
      fun lc => rfl]
    simp only [Option.map_some']
    congr 1
    have e1 : b1 / 4 * 4 + (b1 % 4) * 16 / 16 = b1 := by omega
    rw [e1]
  | case4 => rfl

theorem b64_roundtrip (bs : List Nat) (h : ∀ b ∈ bs, b < 256) :
    b64decodeModel (b64encodeBytes bs) = some bs := by
  unfold b64decodeModel
  exact a2b_encode bs h

/-! ## Decimal roundtrip: `int(str(n)) == n` -/

theorem natDigitsRevFuel_irrel (n : Nat) : ∀ f1 f2, n ≤ f1 → n ≤ f2 →
    natDigitsRevFuel f1 n = natDigitsRevFuel f2 n := by
  induction n using Nat.strong_induction_on with
  | _ n ih =>
    intro f1 f2 h1 h2
    cases n with
    | zero => cases f1 <;> cases f2 <;> rfl
    | succ m =>
      cases f1 with
      | zero => omega
      | succ a =>
        cases f2 with
        | zero => omega
        | succ b =>
          rw [natDigitsRevFuel, natDigitsRevFuel]
          congr 1
          exact ih ((m + 1) / 10) (by omega) a b (by omega) (by omega)

theorem natDigitsRev_succ (n : Nat) (h : n ≠ 0) :
    natDigitsRev n = digitChar (n % 10) :: natDigitsRev (n / 10) := by
  cases n with
  | zero => exact absurd rfl h
  | succ m =>
    show natDigitsRevFuel (m + 1) (m + 1) = _
    rw [natDigitsRevFuel]
    congr 1
    exact natDigitsRevFuel_irrel ((m + 1) / 10) m ((m + 1) / 10)
      (by omega) (by omega)

theorem digitVal_digitChar : ∀ d < 10, digitVal (digitChar d) = some d := by
  decide

theorem digitChar_not_ws : ∀ d < 10,
    isPyWhitespace (digitChar d) = false := by decide

theorem digitChar_not_special : ∀ d < 10,
    (digitChar d == '+') = false ∧ (digitChar d == '-') = false ∧
      (digitChar d == '_') = false := by decide

theorem natDigitsRev_mem (n : Nat) :
    ∀ c ∈ natDigitsRev n, ∃ d, d < 10 ∧ c = digitChar d := by
  induction n using Nat.strong_induction_on with
  | _ n ih =>
    rcases Nat.eq_zero_or_pos n with rfl | hpos
    · intro c hc
      simp [natDigitsRev, natDigitsRevFuel] at hc
    · rw [natDigitsRev_succ n (by omega)]
      intro c hc
      rcases List.mem_cons.mp hc with rfl | hc
      · exact ⟨n % 10, by omega, rfl⟩
      · exact ih (n / 10) (by omega) c hc

theorem parseDigitsGo_digits (l : PyStr)
    (hl : ∀ c ∈ l, ∃ d, d < 10 ∧ c = digitChar d) :
    ∀ acc, parseDigitsGo acc false l =
      some (l.foldl (fun a c => a * 10 + (digitVal c).getD 0) acc) := by
  induction l with
  | nil => intro acc; rfl
  | cons c rest ih =>
    intro acc
    obtain ⟨d, hd, rfl⟩ := hl c (List.mem_cons_self _ _)
    rw [parseDigitsGo,
      if_neg (by simp [(digitChar_not_special d hd).2.2]),
      digitVal_digitChar d hd]
    simp only [bindSomeEq]
    rw [ih (fun x hx => hl x (List.mem_cons_of_mem _ hx))]
    rw [List.foldl_cons, digitVal_digitChar d hd]
    rfl

theorem digits_foldl_value (n : Nat) : ∀ acc : Nat,
    ((natDigitsRev n).reverse).foldl
      (fun a c => a * 10 + (digitVal c).getD 0) acc =
    acc * 10 ^ (natDigitsRev n).length + n := by
  induction n using Nat.strong_induction_on with
  | _ n ih =>
    intro acc
    rcases Nat.eq_zero_or_pos n with rfl | hpos
    · simp [natDigitsRev, natDigitsRevFuel]
    · rw [natDigitsRev_succ n (by omega)]
      simp only [List.reverse_cons, List.foldl_append, List.foldl_cons,
        List.foldl_nil, List.length_cons]
      rw [ih (n / 10) (by omega) acc, digitVal_digitChar (n % 10) (by omega)]
      have hp : (10 : Nat) ^ ((natDigitsRev (n / 10)).length + 1) =
          10 ^ (natDigitsRev (n / 10)).length * 10 := pow_succ 10 _
      rw [hp]
      simp only [Option.getD_some]
      have := Nat.div_add_mod n 10
      set K := (10 : Nat) ^ (natDigitsRev (n / 10)).length
      ring_nf
      omega

theorem dropWhile_id {α : Type} (p : α → Bool) (l : List α)
    (h : ∀ c ∈ l, p c = false) : l.dropWhile p = l := by
  cases l with
  | nil => rfl
  | cons a rest =>
    rw [List.dropWhile_cons, h a (List.mem_cons_self _ _)]
    simp

theorem stripPyWs_id (s : PyStr)
    (h : ∀ c ∈ s, isPyWhitespace c = false) : stripPyWs s = s := by
  unfold stripPyWs
  rw [dropWhile_id _ _ h, dropWhile_id, List.reverse_reverse]
  intro c hc
  exact h c (List.mem_reverse.mp hc)

theorem pyIntAscii_pyStrOfNat (n : Nat) :
    pyIntAscii (pyStrOfNat n) = some (n : Int) := by
  rcases Nat.eq_zero_or_pos n with rfl | hpos
  · decide
  · have hs : pyStrOfNat n = (natDigitsRev n).reverse := by
      unfold pyStrOfNat
      rw [if_neg (by omega)]
    have hmem : ∀ c ∈ (natDigitsRev n).reverse,
        ∃ d, d < 10 ∧ c = digitChar d := by
      intro c hc
      exact natDigitsRev_mem n c (List.mem_reverse.mp hc)
    have hne : natDigitsRev n ≠ [] := by
      rw [natDigitsRev_succ n (by omega)]
      simp
    obtain ⟨c, rest, hcr⟩ :
        ∃ c rest, (natDigitsRev n).reverse = c :: rest := by
      cases hrev : (natDigitsRev n).reverse with
      | nil => exact absurd (by simpa using congrArg List.reverse hrev) hne
      | cons c rest => exact ⟨c, rest, rfl⟩
    obtain ⟨d, hd, hcd⟩ := hmem c (hcr ▸ List.mem_cons_self c rest)
    unfold pyIntAscii
    rw [hs, stripPyWs_id _ (by
      intro x hx
      obtain ⟨d', hd', rfl⟩ := hmem x hx
      exact digitChar_not_ws d' hd'), hcr]
    show (if c == '+' then _ else if c == '-' then _ else
      (parseDigits (c :: rest)).map fun m => (m : Int)) = _
    rw [if_neg (by simp [hcd, (digitChar_not_special d hd).1]),
      if_neg (by simp [hcd, (digitChar_not_special d hd).2.1])]
    rw [parseDigits, hcd, digitVal_digitChar d hd]
    simp only [bindSomeEq]
    rw [parseDigitsGo_digits rest (fun x hx =>
      hmem x (hcr ▸ List.mem_cons_of_mem c hx))]
    have hfold := digits_foldl_value n 0
    rw [hcr, List.foldl_cons, hcd, digitVal_digitChar d hd] at hfold
    simp only [Option.getD_some, Nat.zero_mul, Nat.zero_add] at hfold
    rw [hfold]
    simp

theorem digitChar_lt_127 : ∀ d < 10, (digitChar d).toNat < 127 := by
  decide

theorem transformDecimal_ascii (s : PyStr) (h : ∀ c ∈ s, c.toNat < 127) :
    transformDecimal s = s := by
  induction s with
  | nil => rfl
  | cons c rest ih =>
    rw [transformDecimal, if_pos (h c (List.mem_cons_self _ _)),
      ih (fun x hx => h x (List.mem_cons_of_mem _ hx))]

theorem pyStrOfNat_lt_127 (n : Nat) :
    ∀ c ∈ pyStrOfNat n, c.toNat < 127 := by
  intro c hc
  unfold pyStrOfNat at hc
  by_cases hn : n = 0
  · rw [if_pos hn] at hc
    simp at hc
    subst hc
    decide
  · rw [if_neg hn] at hc
    obtain ⟨d, hd, rfl⟩ := natDigitsRev_mem n c (List.mem_reverse.mp hc)
    exact digitChar_lt_127 d hd

theorem pyInt_pyStrOfNat (n : Nat) :
    pyInt (pyStrOfNat n) = some (n : Int) := by
  unfold pyInt
  rw [transformDecimal_ascii _ (pyStrOfNat_lt_127 n), pyIntAscii_pyStrOfNat]

theorem positive_int_pyStrOfNat (n cutoff : Nat) :
    _positive_int (pyStrOfNat n) cutoff =
      some (if cutoff ≠ 0 then min n cutoff else n) := by
  unfold _positive_int
  rw [pyInt_pyStrOfNat]
  simp only [bindSomeEq]
  rw [if_neg (by simp)]
  split <;> simp

/-! ## UTF-8 roundtrip -/

theorem char_toNat_valid (c : Char) :
    c.toNat < 55296 ∨ (57343 < c.toNat ∧ c.toNat < 1114112) := c.valid

theorem charToNat_ofNat (n : Nat) (h : n.isValidChar) :
    (Char.ofNat n).toNat = n := by
  unfold Char.ofNat
  rw [dif_pos h]
  rfl

theorem utf8DecodeFuel_irrel : ∀ (n : Nat) (l : List Nat),
    l.length ≤ n → ∀ f1 f2, l.length ≤ f1 → l.length ≤ f2 →
    utf8DecodeFuel f1 l = utf8DecodeFuel f2 l := by
  intro n
  induction n using Nat.strong_induction_on with
  | _ n ih =>
    intro l hln f1 f2 h1 h2
    cases l with
    | nil => cases f1 <;> cases f2 <;> rfl
    | cons b1 rest =>
      cases f1 with
      | zero => simp at h1
      | succ a =>
        cases f2 with
        | zero => simp at h2
        | succ b =>
          have key : ∀ X : List Nat, X.length ≤ rest.length →
              utf8DecodeFuel a X = utf8DecodeFuel b X := by
            intro X hX
            simp only [List.length_cons] at hln h1 h2
            exact ih rest.length (by omega) X hX a b (by omega) (by omega)
          cases rest with
          | nil =>
            rw [utf8DecodeFuel.eq_4, utf8DecodeFuel.eq_4]
            repeat' split
            all_goals first
              | rfl
              | (congr 1; apply key; simp only [List.length_cons,
                  List.length_nil]; omega)
              | (congr 1; apply key; simp_all; omega)
              | simp_all
          | cons b2 rest2 =>
            cases rest2 with
            | nil =>
              rw [utf8DecodeFuel.eq_3, utf8DecodeFuel.eq_3]
              repeat' split
              all_goals first
                | rfl
                | (congr 1; apply key; simp only [List.length_cons,
                    List.length_nil]; omega)
                | (congr 1; apply key; simp_all; omega)
                | simp_all
            | cons b3 rest3 =>
              cases rest3 with
              | nil =>
                rw [utf8DecodeFuel.eq_3, utf8DecodeFuel.eq_3]
                repeat' split
                all_goals first
                  | rfl
                  | (congr 1; apply key; simp only [List.length_cons,
                      List.length_nil]; omega)
                  | (congr 1; apply key; simp_all; omega)
                  | simp_all
              | cons b4 rest4 =>
                rw [utf8DecodeFuel.eq_3, utf8DecodeFuel.eq_3]
                repeat' split
                all_goals first
                  | rfl
                  | (congr 1; apply key; simp only [List.length_cons,
                      List.length_nil]; omega)
                  | (congr 1; apply key; simp_all; omega)
                  | simp_all

theorem utf8DecodeFuel_eq_decode (f : Nat) (l : List Nat)
    (h : l.length ≤ f) : utf8DecodeFuel f l = utf8Decode l :=
  utf8DecodeFuel_irrel f l h f l.length h (le_refl _)

theorem utf8DecodeFuel_one (f b1 : Nat) (rest : List Nat)
    (h1 : b1 < 128) :
    utf8DecodeFuel (f + 1) (b1 :: rest) =
      Char.ofNat b1 :: utf8DecodeFuel f rest := by
  cases rest with
  | nil => rw [utf8DecodeFuel.eq_4, if_pos h1]
  | cons b2 rest2 => rw [utf8DecodeFuel.eq_3, if_pos h1]

theorem utf8DecodeFuel_two (f b1 b2 : Nat) (rest : List Nat)
    (h1 : ¬ b1 < 128) (h2 : 194 ≤ b1 ∧ b1 ≤ 223) (h3 : isContB b2) :
    utf8DecodeFuel (f + 1) (b1 :: b2 :: rest) =
      Char.ofNat ((b1 - 192) * 64 + (b2 - 128)) ::
        utf8DecodeFuel f rest := by
  rw [utf8DecodeFuel.eq_3, if_neg h1, if_pos h2, if_pos h3]

theorem utf8DecodeFuel_three (f b1 b2 b3 : Nat) (rest : List Nat)
    (h1 : ¬ b1 < 128) (h2 : ¬ (194 ≤ b1 ∧ b1 ≤ 223))
    (h3 : 224 ≤ b1 ∧ b1 ≤ 239)
    (h4 : isContB b2 ∧ isContB b3 ∧ (b1 = 224 → 160 ≤ b2) ∧
      (b1 = 237 → b2 ≤ 159)) :
    utf8DecodeFuel (f + 1) (b1 :: b2 :: b3 :: rest) =
      Char.ofNat ((b1 - 224) * 4096 + (b2 - 128) * 64 + (b3 - 128)) ::
        utf8DecodeFuel f rest := by
  rw [utf8DecodeFuel.eq_3, if_neg h1, if_neg h2, if_pos h3]
  show (if isContB b2 ∧ isContB b3 ∧ (b1 = 224 → 160 ≤ b2) ∧
        (b1 = 237 → b2 ≤ 159) then
      Char.ofNat ((b1 - 224) * 4096 + (b2 - 128) * 64 + (b3 - 128)) ::
        utf8DecodeFuel f rest
    else Char.ofNat 65533 :: utf8DecodeFuel f (b2 :: b3 :: rest)) = _
  rw [if_pos h4]

theorem utf8DecodeFuel_four (f b1 b2 b3 b4 : Nat) (rest : List Nat)
    (h1 : ¬ b1 < 128) (h2 : ¬ (194 ≤ b1 ∧ b1 ≤ 223))
    (h3 : ¬ (224 ≤ b1 ∧ b1 ≤ 239)) (h4 : 240 ≤ b1 ∧ b1 ≤ 244)
    (h5 : isContB b2 ∧ isContB b3 ∧ isContB b4 ∧
      (b1 = 240 → 144 ≤ b2) ∧ (b1 = 244 → b2 ≤ 143)) :
    utf8DecodeFuel (f + 1) (b1 :: b2 :: b3 :: b4 :: rest) =
      Char.ofNat ((b1 - 240) * 262144 + (b2 - 128) * 4096 +
        (b3 - 128) * 64 + (b4 - 128)) :: utf8DecodeFuel f rest := by
  rw [utf8DecodeFuel.eq_3, if_neg h1, if_neg h2, if_neg h3, if_pos h4]
  show (if isContB b2 ∧ isContB b3 ∧ isContB b4 ∧
        (b1 = 240 → 144 ≤ b2) ∧ (b1 = 244 → b2 ≤ 143) then
      Char.ofNat ((b1 - 240) * 262144 + (b2 - 128) * 4096 +
        (b3 - 128) * 64 + (b4 - 128)) :: utf8DecodeFuel f rest
    else Char.ofNat 65533 ::
      utf8DecodeFuel f (b2 :: b3 :: b4 :: rest)) = _
  rw [if_pos h5]

theorem utf8Decode_fuel_form (l : List Nat) :
    utf8Decode l = utf8DecodeFuel l.length l := rfl

theorem utf8Decode_encodeChar (c : Char) (ys : List Nat) :
    utf8Decode (utf8EncodeChar c ++ ys) = c :: utf8Decode ys := by
  rcases char_toNat_valid c with hval | hval
  all_goals (
    unfold utf8EncodeChar
    by_cases hr1 : c.toNat < 128
    · rw [if_pos hr1]
      rw [utf8Decode_fuel_form]
      simp only [List.cons_append, List.nil_append, List.length_cons]
      rw [utf8DecodeFuel_one _ _ _ hr1, Char.ofNat_toNat,
        utf8DecodeFuel_eq_decode _ _ (le_refl _)]
    · by_cases hr2 : c.toNat < 2048
      · rw [if_neg hr1, if_pos hr2]
        rw [utf8Decode_fuel_form]
        simp only [List.cons_append, List.nil_append, List.length_cons]
        rw [utf8DecodeFuel_two _ _ _ _ (by omega)
          (by constructor <;> omega) (by unfold isContB; omega)]
        have he : (192 + c.toNat / 64 - 192) * 64 +
            (128 + c.toNat % 64 - 128) = c.toNat := by omega
        rw [he, Char.ofNat_toNat,
          utf8DecodeFuel_eq_decode _ _ (by omega)]
      · by_cases hr3 : c.toNat < 65536
        · rw [if_neg hr1, if_neg hr2, if_pos hr3]
          rw [utf8Decode_fuel_form]
          simp only [List.cons_append, List.nil_append, List.length_cons]
          rw [utf8DecodeFuel_three _ _ _ _ _ (by omega) (by omega)
            (by constructor <;> omega)
            (by refine ⟨?_, ?_, ?_, ?_⟩ <;> (try unfold isContB) <;>
              omega)]
          have he : (224 + c.toNat / 4096 - 224) * 4096 +
              (128 + c.toNat / 64 % 64 - 128) * 64 +
              (128 + c.toNat % 64 - 128) = c.toNat := by omega
          rw [he, Char.ofNat_toNat,
            utf8DecodeFuel_eq_decode _ _ (by omega)]
        · rw [if_neg hr1, if_neg hr2, if_neg hr3]
          rw [utf8Decode_fuel_form]
          simp only [List.cons_append, List.nil_append, List.length_cons]
          rw [utf8DecodeFuel_four _ _ _ _ _ _ (by omega) (by omega)
            (by omega) (by constructor <;> omega)
            (by refine ⟨?_, ?_, ?_, ?_, ?_⟩ <;> (try unfold isContB) <;>
              omega)]
          have he : (240 + c.toNat / 262144 - 240) * 262144 +
              (128 + c.toNat / 4096 % 64 - 128) * 4096 +
              (128 + c.toNat / 64 % 64 - 128) * 64 +
              (128 + c.toNat % 64 - 128) = c.toNat := by omega
          rw [he, Char.ofNat_toNat,
            utf8DecodeFuel_eq_decode _ _ (by omega)])

theorem utf8Decode_encode (s : PyStr) :
    utf8Decode (utf8Encode s) = s := by
  induction s with
  | nil => rfl
  | cons c cs ih =>
    show utf8Decode (utf8EncodeChar c ++ utf8Encode cs) = _
    rw [utf8Decode_encodeChar, ih]

theorem utf8Encode_lt_256 (s : PyStr) :
    ∀ b ∈ utf8Encode s, b < 256 := by
  intro b hb
  unfold utf8Encode at hb
  obtain ⟨c, -, hbc⟩ := List.mem_flatMap.mp hb
  have hval := char_toNat_valid c
  simp only [utf8EncodeChar] at hbc
  split at hbc
  · simp at hbc; omega
  · split at hbc
    · simp at hbc; rcases hbc with rfl | rfl <;> omega
    · split at hbc
      · simp at hbc; rcases hbc with rfl | rfl | rfl <;> omega
      · simp at hbc; rcases hbc with rfl | rfl | rfl | rfl <;> omega

/-! ## Percent-encoding roundtrip -/

theorem hexVal_hexUpper : ∀ d < 16, hexVal (hexUpper d) = some d := by
  decide

theorem hexUpper_lt_128 : ∀ d < 16, (hexUpper d).toNat < 128 := by decide

theorem hexUpper_ne : ∀ d < 16, (hexUpper d == '+') = false ∧
    (hexUpper d == '=') = false ∧ (hexUpper d == '&') = false ∧
    (hexUpper d == '%') = false := by decide

theorem alwaysSafeByte_lt_128 (b : Nat) (h : alwaysSafeByte b = true) :
    b < 128 := by
  unfold alwaysSafeByte at h
  simp at h
  omega

theorem alwaysSafeByte_ne (b : Nat) (h : alwaysSafeByte b = true) :
    b ≠ 37 ∧ b ≠ 43 ∧ b ≠ 61 ∧ b ≠ 38 ∧ b ≠ 32 := by
  unfold alwaysSafeByte at h
  simp at h
  omega

/-- `quote_plus` per byte, after the `+`-to-space replacement of
`unquote_plus` has been undone: safe bytes and the space byte stay
literal, everything else is `%XX`. -/
def quoteByteCanon (b : Nat) : PyStr :=
  if alwaysSafeByte b || b == 32 then [Char.ofNat b]
  else ['%', hexUpper (b / 16), hexUpper (b % 16)]

theorem map_flatMap_fn {α β γ : Type} (l : List α) (f : α → List β)
    (g : β → γ) :
    (l.flatMap f).map g = l.flatMap fun a => (f a).map g := by
  induction l with
  | nil => rfl
  | cons a as ih => simp [ih]


theorem isValidChar_of_lt_128 (n : Nat) (h : n < 128) : n.isValidChar :=
  Or.inl (by omega)

theorem char_beq_false_of_toNat_ne (c d : Char) (h : c.toNat ≠ d.toNat) :
    (c == d) = false := by
  rw [Bool.eq_false_iff]
  intro hc
  exact h (congrArg Char.toNat (eq_of_beq hc))

theorem plusToSpace_quote_plus (s : PyStr) :
    plusToSpace (quote_plus s) = (utf8Encode s).flatMap quoteByteCanon := by
  unfold quote_plus plusToSpace
  rw [map_flatMap_fn]
  apply List.flatMap_congr
  intro b hb
  have hb256 := utf8Encode_lt_256 s b hb
  by_cases h32 : b = 32
  · subst h32
    rfl
  · rw [if_neg (by simp [h32])]
    unfold quoteByte quoteByteCanon
    by_cases hsafe : alwaysSafeByte b = true
    · rw [if_pos hsafe, if_pos (by simp [hsafe])]
      have hlt := alwaysSafeByte_lt_128 b hsafe
      have hne := (alwaysSafeByte_ne b hsafe).2.1
      have hb43 : ((Char.ofNat b) == '+') = false := by
        apply char_beq_false_of_toNat_ne
        rw [charToNat_ofNat b (isValidChar_of_lt_128 b hlt)]
        exact hne
      simp only [List.map_cons, List.map_nil]
      rw [if_neg (by simp [hb43])]
    · rw [if_neg hsafe, if_neg (by simp [hsafe, h32])]
      simp only [List.map_cons, List.map_nil]
      rw [if_neg (by decide),
        if_neg (by simp [(hexUpper_ne (b / 16) (by omega)).1]),
        if_neg (by simp [(hexUpper_ne (b % 16) (by omega)).1])]

theorem quoteByteCanon_ascii (b : Nat) (h : b < 256) :
    ∀ c ∈ quoteByteCanon b, c.toNat < 128 := by
  intro c hc
  unfold quoteByteCanon at hc
  by_cases hsafe : (alwaysSafeByte b || b == 32) = true
  · rw [if_pos hsafe] at hc
    simp at hc
    subst hc
    rcases Bool.or_eq_true_iff.mp hsafe with hs | hs
    · have hlt := alwaysSafeByte_lt_128 b hs
      rw [charToNat_ofNat b (isValidChar_of_lt_128 b hlt)]
      exact hlt
    · rw [show b = 32 from by simpa using hs]
      decide
  · rw [if_neg hsafe] at hc
    simp only [List.mem_cons] at hc
    rcases hc with rfl | rfl | rfl | hc
    · decide
    · exact hexUpper_lt_128 (b / 16) (by omega)
    · exact hexUpper_lt_128 (b % 16) (by omega)
    · simp at hc

theorem unquoteChunkFuel_nil (f : Nat) :
    unquoteAsciiChunkFuel f [] = [] := by
  cases f <;> rfl

theorem unquoteChunkFuel_lit (f : Nat) (c : Char) (rest : PyStr)
    (h : (c == '%') = false) :
    unquoteAsciiChunkFuel (f + 1) (c :: rest) =
      c.toNat :: unquoteAsciiChunkFuel f rest := by
  match rest with
  | c1 :: c2 :: rest2 =>
    rw [unquoteAsciiChunkFuel.eq_3, if_neg (by simp [h])]
  | [] =>
    rw [unquoteAsciiChunkFuel.eq_4 _ _ _ (by intro _ _ _ hx; cases hx),
      if_neg (by simp [h])]
  | [c1] =>
    rw [unquoteAsciiChunkFuel.eq_4 _ _ _ (by
        intro _ _ _ hx
        simp at hx),
      if_neg (by simp [h])]

theorem unquoteChunkFuel_esc (f : Nat) (c1 c2 : Char) (rest : PyStr)
    (d1 d2 : Nat) (hv1 : hexVal c1 = some d1) (hv2 : hexVal c2 = some d2) :
    unquoteAsciiChunkFuel (f + 1) ('%' :: c1 :: c2 :: rest) =
      (d1 * 16 + d2) :: unquoteAsciiChunkFuel f rest := by
  rw [unquoteAsciiChunkFuel.eq_3, if_pos (by decide), hv1, hv2]

theorem quoteByteCanon_safe (b : Nat)
    (h : (alwaysSafeByte b || b == 32) = true) :
    quoteByteCanon b = [Char.ofNat b] := by
  unfold quoteByteCanon
  rw [if_pos h]

theorem quoteByteCanon_escaped (b : Nat)
    (h : (alwaysSafeByte b || b == 32) = false) :
    quoteByteCanon b = ['%', hexUpper (b / 16), hexUpper (b % 16)] := by
  unfold quoteByteCanon
  rw [if_neg (by simp [h])]

theorem unquoteChunkFuel_canon (bs : List Nat) :
    ∀ f, (∀ b ∈ bs, b < 256) → (bs.flatMap quoteByteCanon).length ≤ f →
      unquoteAsciiChunkFuel f (bs.flatMap quoteByteCanon) = bs := by
  induction bs with
  | nil =>
    intro f _ _
    exact unquoteChunkFuel_nil f
  | cons b rest ih =>
    intro f h hf
    have hb := h b (List.mem_cons_self _ _)
    rw [List.flatMap_cons] at hf ⊢
    by_cases hsafe : (alwaysSafeByte b || b == 32) = true
    · rw [quoteByteCanon_safe b hsafe] at hf ⊢
      simp only [List.length_append, List.length_cons,
        List.length_nil] at hf
      cases f with
      | zero => omega
      | succ f' =>
        simp only [List.cons_append, List.nil_append]
        have hbasc : b < 128 := by
          rcases Bool.or_eq_true_iff.mp hsafe with hs | hs
          · exact alwaysSafeByte_lt_128 b hs
          · simp at hs; omega
        have hlit : ((Char.ofNat b) == '%') = false := by
          apply char_beq_false_of_toNat_ne
          rw [charToNat_ofNat b (isValidChar_of_lt_128 b hbasc)]
          show b ≠ 37
          rcases Bool.or_eq_true_iff.mp hsafe with hs | hs
          · exact (alwaysSafeByte_ne b hs).1
          · simp at hs; omega
        rw [unquoteChunkFuel_lit f' _ _ hlit,
          charToNat_ofNat b (isValidChar_of_lt_128 b hbasc),
          ih f' (fun x hx => h x (List.mem_cons_of_mem _ hx)) (by omega)]
    · have hsafe' : (alwaysSafeByte b || b == 32) = false := by
        simpa using hsafe
      rw [quoteByteCanon_escaped b hsafe'] at hf ⊢
      simp only [List.length_append, List.length_cons,
        List.length_nil] at hf
      cases f with
      | zero => omega
      | succ f' =>
        simp only [List.cons_append, List.nil_append]
        rw [unquoteChunkFuel_esc f' _ _ _ _ _
          (hexVal_hexUpper (b / 16) (by omega))
          (hexVal_hexUpper (b % 16) (by omega))]
        rw [ih f' (fun x hx => h x (List.mem_cons_of_mem _ hx)) (by omega)]
        congr 1
        omega

theorem unquoteChunk_canon (bs : List Nat) (h : ∀ b ∈ bs, b < 256) :
    unquoteAsciiChunk (bs.flatMap quoteByteCanon) = bs :=
  unquoteChunkFuel_canon bs _ h (le_refl _)

theorem takeRun_all_ascii (l : PyStr) (h : ∀ c ∈ l, c.toNat < 128) :
    takeRun true l = (l, []) := by
  induction l with
  | nil => rfl
  | cons c rest ih =>
    rw [takeRun]
    rw [if_pos (by
      rw [decide_eq_true (h c (List.mem_cons_self _ _))]
      rfl)]
    simp [ih (fun x hx => h x (List.mem_cons_of_mem _ hx))]

theorem unquoteFuel_nil (f : Nat) : unquoteFuel f [] = [] := by
  cases f <;> rfl

theorem unquote_all_ascii (s : PyStr) (h : ∀ c ∈ s, c.toNat < 128) :
    unquote s = utf8Decode (unquoteAsciiChunk s) := by
  cases s with
  | nil => rfl
  | cons c rest =>
    show unquoteFuel (rest.length + 1) (c :: rest) = _
    rw [unquoteFuel.eq_3]
    have hc : decide (c.toNat < 128) = true :=
      decide_eq_true (h c (List.mem_cons_self _ _))
    simp only [hc]
    rw [takeRun_all_ascii rest (fun x hx => h x (List.mem_cons_of_mem _ hx))]
    show (if (true : Bool) = true then utf8Decode (unquoteAsciiChunk (c :: rest))
      else c :: rest) ++ unquoteFuel rest.length [] = _
    rw [if_pos rfl, unquoteFuel_nil, List.append_nil]

theorem unquote_plus_quote_plus (s : PyStr) :
    unquote_plus (quote_plus s) = s := by
  unfold unquote_plus
  rw [plusToSpace_quote_plus]
  rw [unquote_all_ascii _ (by
    intro c hc
    obtain ⟨b, hb, hcb⟩ := List.mem_flatMap.mp hc
    exact quoteByteCanon_ascii b (utf8Encode_lt_256 s b hb) c hcb)]
  rw [unquoteChunk_canon _ (utf8Encode_lt_256 s)]
  exact utf8Decode_encode s

/-! ## Querystring roundtrip -/

theorem quote_plus_chars (s : PyStr) :
    ∀ c ∈ quote_plus s, (c == '&') = false ∧ (c == '=') = false ∧
      c.toNat < 128 := by
  intro c hc
  unfold quote_plus at hc
  obtain ⟨b, hb, hcb⟩ := List.mem_flatMap.mp hc
  have hb256 := utf8Encode_lt_256 s b hb
  by_cases h32 : (b == 32) = true
  · rw [if_pos h32] at hcb
    simp at hcb
    subst hcb
    exact ⟨by decide, by decide, by decide⟩
  · rw [if_neg (by simpa using h32)] at hcb
    unfold quoteByte at hcb
    by_cases hsafe : alwaysSafeByte b = true
    · rw [if_pos hsafe] at hcb
      simp at hcb
      subst hcb
      have hlt := alwaysSafeByte_lt_128 b hsafe
      have hne := alwaysSafeByte_ne b hsafe
      refine ⟨?_, ?_, ?_⟩
      · apply char_beq_false_of_toNat_ne
        rw [charToNat_ofNat b (isValidChar_of_lt_128 b hlt)]
        exact hne.2.2.2.1
      · apply char_beq_false_of_toNat_ne
        rw [charToNat_ofNat b (isValidChar_of_lt_128 b hlt)]
        exact hne.2.2.1
      · rw [charToNat_ofNat b (isValidChar_of_lt_128 b hlt)]
        exact hlt
    · rw [if_neg hsafe] at hcb
      simp only [List.mem_cons] at hcb
      rcases hcb with rfl | rfl | rfl | hcb
      · exact ⟨by decide, by decide, by decide⟩
      · have h16 : b / 16 < 16 := by omega
        exact ⟨(hexUpper_ne _ h16).2.2.1, (hexUpper_ne _ h16).2.1,
          hexUpper_lt_128 _ h16⟩
      · have h16 : b % 16 < 16 := by omega
        exact ⟨(hexUpper_ne _ h16).2.2.1, (hexUpper_ne _ h16).2.1,
          hexUpper_lt_128 _ h16⟩
      · simp at hcb

theorem pySplitChar_ne_nil (sep : Char) (s : PyStr) :
    pySplitChar sep s ≠ [] := by
  cases s with
  | nil => simp [pySplitChar]
  | cons c rest =>
    rw [pySplitChar]
    cases hps : pySplitChar sep rest with
    | nil => simp
    | cons h t =>
      dsimp only
      split <;> simp

theorem pySplitChar_no_sep (sep : Char) (a : PyStr)
    (h : ∀ c ∈ a, (c == sep) = false) :
    pySplitChar sep a = [a] := by
  induction a with
  | nil => rfl
  | cons c rest ih =>
    rw [pySplitChar, ih (fun x hx => h x (List.mem_cons_of_mem _ hx))]
    show (if c == sep then [] :: rest :: [] else (c :: rest) :: []) =
      [c :: rest]
    rw [if_neg (by simp [h c (List.mem_cons_self _ _)])]

theorem pySplitChar_sep_append (sep : Char) (a b : PyStr)
    (h : ∀ c ∈ a, (c == sep) = false) :
    pySplitChar sep (a ++ sep :: b) = a :: pySplitChar sep b := by
  induction a with
  | nil =>
    rw [List.nil_append, pySplitChar]
    cases hps : pySplitChar sep b with
    | nil => exact absurd hps (pySplitChar_ne_nil sep b)
    | cons hh tt =>
      dsimp only
      rw [if_pos (by simp)]
  | cons c rest ih =>
    rw [List.cons_append, pySplitChar,
      ih (fun x hx => h x (List.mem_cons_of_mem _ hx))]
    show (if c == sep then [] :: rest :: pySplitChar sep b
      else (c :: rest) :: pySplitChar sep b) =
      (c :: rest) :: pySplitChar sep b
    rw [if_neg (by simp [h c (List.mem_cons_self _ _)])]

theorem findIdx_key (k v : PyStr) (hk : ∀ c ∈ k, (c == '=') = false) :
    ((k ++ '=' :: v).findIdx fun c => c == '=') = k.length := by
  induction k with
  | nil => simp [List.findIdx_cons]
  | cons c rest ih =>
    rw [List.cons_append, List.findIdx_cons,
      hk c (List.mem_cons_self _ _)]
    simp only [cond_false]
    rw [ih (fun x hx => hk x (List.mem_cons_of_mem _ hx))]
    simp

theorem take_key (k v : PyStr) : (k ++ '=' :: v).take k.length = k :=
  List.take_left k ('=' :: v)

theorem drop_val (k v : PyStr) : (k ++ '=' :: v).drop (k.length + 1) = v := by
  rw [List.append_cons]
  have hl : (k ++ ['=']).length = k.length + 1 := by simp
  rw [← hl, List.drop_left]

theorem urlchunk_eval (k v : PyStr) :
    (fun (nv : PyStr) =>
      if nv.isEmpty then (none : Option (PyStr × PyStr))
      else
        let i := nv.findIdx (· == '=')
        if i = nv.length then some (unquote_plus nv, unquote_plus [])
        else some (unquote_plus (nv.take i), unquote_plus (nv.drop (i + 1))))
      (quote_plus k ++ '=' :: quote_plus v) = some (k, v) := by
  have hne : (quote_plus k ++ '=' :: quote_plus v).isEmpty = false := by
    cases hq : quote_plus k <;> rfl
  simp only []
  rw [if_neg (by simp [hne])]
  rw [findIdx_key (quote_plus k) (quote_plus v)
    (fun c hc => (quote_plus_chars k c hc).2.1)]
  rw [if_neg (by simp only [List.length_append, List.length_cons]; omega)]
  rw [take_key, drop_val, unquote_plus_quote_plus, unquote_plus_quote_plus]

theorem urlencodePairs_chunk_no_amp (k v : PyStr) :
    ∀ c ∈ quote_plus k ++ '=' :: quote_plus v, (c == '&') = false := by
  intro c hc
  rcases List.mem_append.mp hc with h | h
  · exact (quote_plus_chars k c h).1
  · rcases List.mem_cons.mp h with rfl | h
    · decide
    · exact (quote_plus_chars v c h).1

theorem ampJoin_cons_cons (x y : PyStr) (ys : List PyStr) :
    ampJoin (x :: y :: ys) = x ++ '&' :: ampJoin (y :: ys) := rfl

theorem parse_qsl_urlencode (tokens : List (PyStr × PyStr)) :
    parse_qsl (urlencodePairs tokens) = tokens := by
  induction tokens with
  | nil => rfl
  | cons kv rest ih =>
    obtain ⟨k, v⟩ := kv
    cases rest with
    | nil =>
      show parse_qsl (ampJoin [quote_plus k ++ '=' :: quote_plus v]) =
        [(k, v)]
      unfold parse_qsl
      rw [show ampJoin [quote_plus k ++ '=' :: quote_plus v] =
        quote_plus k ++ '=' :: quote_plus v from rfl]
      rw [pySplitChar_no_sep '&' _ (urlencodePairs_chunk_no_amp k v)]
      simp only [List.filterMap_cons, List.filterMap_nil, urlchunk_eval]
    | cons kv2 rest2 =>
      show parse_qsl (ampJoin ((quote_plus k ++ '=' :: quote_plus v) ::
        List.map _ (kv2 :: rest2))) = (k, v) :: kv2 :: rest2
      rw [show List.map (fun kv : PyStr × PyStr =>
          quote_plus kv.1 ++ '=' :: quote_plus kv.2) (kv2 :: rest2) =
        (quote_plus kv2.1 ++ '=' :: quote_plus kv2.2) ::
          List.map (fun kv : PyStr × PyStr =>
            quote_plus kv.1 ++ '=' :: quote_plus kv.2) rest2 from rfl]
      rw [ampJoin_cons_cons]
      unfold parse_qsl
      rw [pySplitChar_sep_append '&' _ _ (urlencodePairs_chunk_no_amp k v)]
      rw [List.filterMap_cons]
      simp only [urlchunk_eval]
      unfold parse_qsl urlencodePairs at ih
      rw [show List.map (fun kv : PyStr × PyStr =>
          quote_plus kv.1 ++ '=' :: quote_plus kv.2) (kv2 :: rest2) =
        (quote_plus kv2.1 ++ '=' :: quote_plus kv2.2) ::
          List.map (fun kv : PyStr × PyStr =>
            quote_plus kv.1 ++ '=' :: quote_plus kv.2) rest2 from rfl] at ih
      rw [ih]

/-! ## Token (base64-over-ASCII) roundtrip -/

theorem chunk_ascii (k v : PyStr) :
    ∀ c ∈ quote_plus k ++ '=' :: quote_plus v, c.toNat < 128 := by
  intro c hc
  rcases List.mem_append.mp hc with h | h
  · exact (quote_plus_chars k c h).2.2
  · rcases List.mem_cons.mp h with rfl | h
    · decide
    · exact (quote_plus_chars v c h).2.2

theorem urlencodePairs_ascii (tokens : List (PyStr × PyStr)) :
    ∀ c ∈ urlencodePairs tokens, c.toNat < 128 := by
  induction tokens with
  | nil =>
    intro c hc
    simp [urlencodePairs, ampJoin] at hc
  | cons kv rest ih =>
    intro c hc
    obtain ⟨k, v⟩ := kv
    cases rest with
    | nil => exact chunk_ascii k v c hc
    | cons kv2 rest2 =>
      have hc' : c ∈ (quote_plus k ++ '=' :: quote_plus v) ++
          '&' :: urlencodePairs (kv2 :: rest2) := hc
      rcases List.mem_append.mp hc' with h | h
      · exact chunk_ascii k v c h
      · rcases List.mem_cons.mp h with rfl | h
        · decide
        · exact ih c h

theorem asciiEncode_of_ascii (s : PyStr) (h : ∀ c ∈ s, c.toNat < 128) :
    asciiEncode s = some (s.map Char.toNat) := by
  unfold asciiEncode
  rw [if_pos (by
    rw [List.all_eq_true]
    intro c hc
    exact decide_eq_true (h c hc))]

theorem asciiDecode_of_lt (bs : List Nat) (h : ∀ b ∈ bs, b < 128) :
    asciiDecode bs = some (bs.map Char.ofNat) := by
  unfold asciiDecode
  rw [if_pos (by
    rw [List.all_eq_true]
    intro b hb
    exact decide_eq_true (h b hb))]

theorem map_ofNat_toNat (s : PyStr) :
    (s.map Char.toNat).map Char.ofNat = s := by
  induction s with
  | nil => rfl
  | cons c rest ih => simp [Char.ofNat_toNat, ih]

theorem map_toNat_ofNat (bs : List Nat) (h : ∀ b ∈ bs, b < 128) :
    (bs.map Char.ofNat).map Char.toNat = bs := by
  induction bs with
  | nil => rfl
  | cons b rest ih =>
    simp only [List.map_cons]
    rw [charToNat_ofNat b (isValidChar_of_lt_128 b
      (h b (List.mem_cons_self _ _))),
      ih (fun x hx => h x (List.mem_cons_of_mem _ hx))]

theorem mem_map_ofNat_ascii (bs : List Nat) (h : ∀ b ∈ bs, b < 128) :
    ∀ c ∈ bs.map Char.ofNat, c.toNat < 128 := by
  intro c hc
  obtain ⟨b, hb, rfl⟩ := List.mem_map.mp hc
  rw [charToNat_ofNat b (isValidChar_of_lt_128 b (h b hb))]
  exact h b hb

theorem optBindSomeEq {α β : Type} (a : α) (f : α → Option β) :
    (some a).bind f = f a := rfl

theorem encode_qs (tokens : List (PyStr × PyStr)) :
    ((asciiEncode (urlencodePairs tokens)).bind fun qsBytes =>
      asciiDecode (b64encodeBytes qsBytes)) =
      some ((b64encodeBytes ((urlencodePairs tokens).map Char.toNat)).map
        Char.ofNat) := by
  rw [asciiEncode_of_ascii _ (urlencodePairs_ascii tokens)]
  simp only [optBindSomeEq]
  exact asciiDecode_of_lt _ (b64encode_lt_128 _ (by
    intro b hb
    obtain ⟨c, hc, rfl⟩ := List.mem_map.mp hb
    have := urlencodePairs_ascii tokens c hc
    omega))

theorem token_qs (tokens : List (PyStr × PyStr)) :
    token_querystring ((b64encodeBytes ((urlencodePairs tokens).map
      Char.toNat)).map Char.ofNat) = some (urlencodePairs tokens) := by
  have hbytes : ∀ b ∈ (urlencodePairs tokens).map Char.toNat, b < 256 := by
    intro b hb
    obtain ⟨c, hc, rfl⟩ := List.mem_map.mp hb
    have := urlencodePairs_ascii tokens c hc
    omega
  have hb64 : ∀ b ∈ b64encodeBytes ((urlencodePairs tokens).map Char.toNat),
      b < 128 := b64encode_lt_128 _ hbytes
  unfold token_querystring
  rw [asciiEncode_of_ascii _ (mem_map_ofNat_ascii _ hb64)]
  simp only [bindSomeEq]
  rw [map_toNat_ofNat _ hb64, b64_roundtrip _ hbytes]
  simp only [bindSomeEq]
  rw [asciiDecode_of_lt _ (by
    intro b hb
    obtain ⟨c, hc, rfl⟩ := List.mem_map.mp hb
    exact urlencodePairs_ascii tokens c hc)]
  rw [map_ofNat_toNat]

theorem positive_int_roundtrip (n cutoff : Nat)
    (h : cutoff = 0 ∨ n ≤ cutoff) :
    _positive_int (pyStrOfNat n) cutoff = some n := by
  rw [positive_int_pyStrOfNat]
  by_cases hc0 : cutoff = 0
  · rw [if_neg (by omega)]
  · rcases h with hc | hc
    · exact absurd hc hc0
    · rw [if_pos hc0, Nat.min_eq_left hc]

theorem decode_cursor_eval (tok qs offStr revStr : PyStr)
    (cutoff offVal : Nat) (revInt : Int) (rev : Bool) (pos : Option PyStr)
    (htok : token_querystring tok = some qs)
    (hoff : qs_offset_raw qs = some offStr)
    (hpi : _positive_int offStr cutoff = some offVal)
    (hrev : qs_reverse_raw qs = some revStr)
    (hri : pyInt revStr = some revInt)
    (hb : (revInt != 0) = rev)
    (hpos : (match dictGet (parse_qs qs) ['p'] with
      | some vs => vs.head? | none => none) = pos) :
    decode_cursor tok cutoff = some ⟨offVal, rev, pos⟩ := by
  unfold decode_cursor
  rw [htok]
  simp only [bindSomeEq]
  rw [hoff]
  simp only [bindSomeEq]
  rw [hpi]
  simp only [bindSomeEq]
  rw [hrev]
  simp only [bindSomeEq]
  rw [hri]
  simp only [bindSomeEq]
  rw [hb, hpos]
  rfl

/-! ## C2: encode/decode roundtrip -/

/-- C2 counterexample: a cursor with offset 1001 encodes to a token that,
decoded under `offset_cutoff = 1000`, comes back clamped to 1000 — so
`decode(encode(c)) = c` fails for this valid cursor. -/
theorem encode_decode_cursor_clamps :
    (encode_cursor ⟨1001, false, none⟩).bind
      (fun tok => decode_cursor tok 1000) = some ⟨1000, false, none⟩ ∧
    (⟨1000, false, none⟩ : Cursor) ≠ ⟨1001, false, none⟩ := by
  constructor
  · decide
  · decide

/-- C2 (amended): for every cursor whose offset does not exceed the
configured `offset_cutoff` (or with clamping disabled, cutoff 0),
decoding the encoded token returns the cursor unchanged:
`decode(encode(c)) = c`. -/
theorem encode_decode_cursor (offset : Nat) (reverse : Bool)
    (position : Option PyStr) (cutoff : Nat)
    (h : cutoff = 0 ∨ offset ≤ cutoff) :
    (encode_cursor ⟨offset, reverse, position⟩).bind
      (fun tok => decode_cursor tok cutoff) =
      some ⟨offset, reverse, position⟩ := by
  by_cases ho : offset = 0
  · subst ho
    cases reverse with
    | false =>
      rcases position with _ | p
      ·
        have hqs : parse_qs (urlencodePairs ([] : List (PyStr × PyStr))) =
            ([] : List (PyStr × List PyStr)) := by
          unfold parse_qs
          rw [parse_qsl_urlencode]
          rfl
        rw [show encode_cursor ⟨0, false, none⟩ =
          some ((b64encodeBytes ((urlencodePairs
            ([] : List (PyStr × PyStr))).map Char.toNat)).map Char.ofNat)
          from by unfold encode_cursor; exact encode_qs _]
        rw [optBindSomeEq]
        exact decode_cursor_eval _ _ (pyStrOfNat 0) ['0']
          cutoff 0 0 false none
          (token_qs _)
          (by unfold qs_offset_raw; rw [hqs]; rfl)
          (positive_int_roundtrip 0 cutoff (Or.inr (Nat.zero_le _)))
          (by unfold qs_reverse_raw; rw [hqs]; rfl)
          rfl (by decide)
          (by rw [hqs]; rfl)
      ·
        have hqs : parse_qs (urlencodePairs [(['p'], p)]) =
            [(['p'], [p])] := by
          unfold parse_qs
          rw [parse_qsl_urlencode]
          rfl
        rw [show encode_cursor ⟨0, false, (some p)⟩ =
          some ((b64encodeBytes ((urlencodePairs
            [(['p'], p)]).map Char.toNat)).map Char.ofNat)
          from by unfold encode_cursor; exact encode_qs _]
        rw [optBindSomeEq]
        exact decode_cursor_eval _ _ (pyStrOfNat 0) ['0']
          cutoff 0 0 false (some p)
          (token_qs _)
          (by unfold qs_offset_raw; rw [hqs]; rfl)
          (positive_int_roundtrip 0 cutoff (Or.inr (Nat.zero_le _)))
          (by unfold qs_reverse_raw; rw [hqs]; rfl)
          rfl (by decide)
          (by rw [hqs]; rfl)
    | true =>
      rcases position with _ | p
      ·
        have hqs : parse_qs (urlencodePairs [(['r'], ['1'])]) =
            [(['r'], [['1']])] := by
          unfold parse_qs
          rw [parse_qsl_urlencode]
          rfl
        rw [show encode_cursor ⟨0, true, none⟩ =
          some ((b64encodeBytes ((urlencodePairs
            [(['r'], ['1'])]).map Char.toNat)).map Char.ofNat)
          from by unfold encode_cursor; exact encode_qs _]
        rw [optBindSomeEq]
        exact decode_cursor_eval _ _ (pyStrOfNat 0) ['1']
          cutoff 0 1 true none
          (token_qs _)
          (by unfold qs_offset_raw; rw [hqs]; rfl)
          (positive_int_roundtrip 0 cutoff (Or.inr (Nat.zero_le _)))
          (by unfold qs_reverse_raw; rw [hqs]; rfl)
          rfl (by decide)
          (by rw [hqs]; rfl)
      ·
        have hqs : parse_qs (urlencodePairs [(['r'], ['1']), (['p'], p)]) =
            [(['r'], [['1']]), (['p'], [p])] := by
          unfold parse_qs
          rw [parse_qsl_urlencode]
          rfl
        rw [show encode_cursor ⟨0, true, (some p)⟩ =
          some ((b64encodeBytes ((urlencodePairs
            [(['r'], ['1']), (['p'], p)]).map Char.toNat)).map Char.ofNat)
          from by unfold encode_cursor; exact encode_qs _]
        rw [optBindSomeEq]
        exact decode_cursor_eval _ _ (pyStrOfNat 0) ['1']
          cutoff 0 1 true (some p)
          (token_qs _)
          (by unfold qs_offset_raw; rw [hqs]; rfl)
          (positive_int_roundtrip 0 cutoff (Or.inr (Nat.zero_le _)))
          (by unfold qs_reverse_raw; rw [hqs]; rfl)
          rfl (by decide)
          (by rw [hqs]; rfl)
  · cases reverse with
    | false =>
      rcases position with _ | p
      ·
        have hqs : parse_qs (urlencodePairs [(['o'], pyStrOfNat offset)]) =
            [(['o'], [pyStrOfNat offset])] := by
          unfold parse_qs
          rw [parse_qsl_urlencode]
          rfl
        rw [show encode_cursor ⟨offset, false, none⟩ =
          some ((b64encodeBytes ((urlencodePairs
            [(['o'], pyStrOfNat offset)]).map Char.toNat)).map Char.ofNat)
          from by unfold encode_cursor; rw [if_pos ho]; exact encode_qs _]
        rw [optBindSomeEq]
        exact decode_cursor_eval _ _ (pyStrOfNat offset) ['0']
          cutoff offset 0 false none
          (token_qs _)
          (by unfold qs_offset_raw; rw [hqs]; rfl)
          (positive_int_roundtrip offset cutoff h)
          (by unfold qs_reverse_raw; rw [hqs]; rfl)
          rfl (by decide)
          (by rw [hqs]; rfl)
      ·
        have hqs : parse_qs (urlencodePairs [(['o'], pyStrOfNat offset), (['p'], p)]) =
            [(['o'], [pyStrOfNat offset]), (['p'], [p])] := by
          unfold parse_qs
          rw [parse_qsl_urlencode]
          rfl
        rw [show encode_cursor ⟨offset, false, (some p)⟩ =
          some ((b64encodeBytes ((urlencodePairs
            [(['o'], pyStrOfNat offset), (['p'], p)]).map Char.toNat)).map Char.ofNat)
          from by unfold encode_cursor; rw [if_pos ho]; exact encode_qs _]
        rw [optBindSomeEq]
        exact decode_cursor_eval _ _ (pyStrOfNat offset) ['0']
          cutoff offset 0 false (some p)
          (token_qs _)
          (by unfold qs_offset_raw; rw [hqs]; rfl)
          (positive_int_roundtrip offset cutoff h)
          (by unfold qs_reverse_raw; rw [hqs]; rfl)
          rfl (by decide)
          (by rw [hqs]; rfl)
    | true =>
      rcases position with _ | p
      ·
        have hqs : parse_qs (urlencodePairs [(['o'], pyStrOfNat offset), (['r'], ['1'])]) =
            [(['o'], [pyStrOfNat offset]), (['r'], [['1']])] := by
          unfold parse_qs
          rw [parse_qsl_urlencode]
          rfl
        rw [show encode_cursor ⟨offset, true, none⟩ =
          some ((b64encodeBytes ((urlencodePairs
            [(['o'], pyStrOfNat offset), (['r'], ['1'])]).map Char.toNat)).map Char.ofNat)
          from by unfold encode_cursor; rw [if_pos ho]; exact encode_qs _]
        rw [optBindSomeEq]
        exact decode_cursor_eval _ _ (pyStrOfNat offset) ['1']
          cutoff offset 1 true none
          (token_qs _)
          (by unfold qs_offset_raw; rw [hqs]; rfl)
          (positive_int_roundtrip offset cutoff h)
          (by unfold qs_reverse_raw; rw [hqs]; rfl)
          rfl (by decide)
          (by rw [hqs]; rfl)
      ·
        have hqs : parse_qs (urlencodePairs [(['o'], pyStrOfNat offset), (['r'], ['1']), (['p'], p)]) =
            [(['o'], [pyStrOfNat offset]), (['r'], [['1']]), (['p'], [p])] := by
          unfold parse_qs
          rw [parse_qsl_urlencode]
          rfl
        rw [show encode_cursor ⟨offset, true, (some p)⟩ =
          some ((b64encodeBytes ((urlencodePairs
            [(['o'], pyStrOfNat offset), (['r'], ['1']), (['p'], p)]).map Char.toNat)).map Char.ofNat)
          from by unfold encode_cursor; rw [if_pos ho]; exact encode_qs _]
        rw [optBindSomeEq]
        exact decode_cursor_eval _ _ (pyStrOfNat offset) ['1']
          cutoff offset 1 true (some p)
          (token_qs _)
          (by unfold qs_offset_raw; rw [hqs]; rfl)
          (positive_int_roundtrip offset cutoff h)
          (by unfold qs_reverse_raw; rw [hqs]; rfl)
          rfl (by decide)
          (by rw [hqs]; rfl)

theorem encode_decode_cursor_witness :
    ((5 : Nat) = 0 ∨ 2 ≤ 5) ∧
    (encode_cursor ⟨2, true, some ['x']⟩).bind
      (fun tok => decode_cursor tok 5) = some ⟨2, true, some ['x']⟩ :=
  ⟨Or.inr (by decide),
    encode_decode_cursor 2 true (some ['x']) 5 (Or.inr (by decide))⟩

/-! ## C9: offset cutoff clamping -/

/-- C9 counterexample: with `offset_cutoff = 0` (falsy, clamping
disabled by `if cutoff:`), the token `b64("o=5")` decodes to offset 5,
not to the cutoff 0 — the incoming `o` exceeds the cutoff yet is not
clamped to it. -/
theorem decode_cursor_no_clamp_at_zero_cutoff :
    decode_cursor ['b', 'z', '0', '1'] 0 = some ⟨5, false, none⟩ ∧
    (5 : Nat) ≠ 0 := ⟨by decide, by decide⟩

/-- C9 (amended): a token whose `o` exceeds the cutoff always decodes
(never rejected), with the offset clamped to the cutoff when the cutoff
is nonzero (truthy) and passed through unchanged when the cutoff is 0. -/
theorem decode_cursor_offset_cutoff (n cutoff : Nat) (hn : cutoff < n) :
    (encode_cursor ⟨n, false, none⟩).bind
      (fun tok => decode_cursor tok cutoff) =
      some ⟨if cutoff ≠ 0 then cutoff else n, false, none⟩ := by
  have hn0 : ¬ n = 0 := by omega
  have hqs : parse_qs (urlencodePairs [(['o'], pyStrOfNat n)]) =
      [(['o'], [pyStrOfNat n])] := by
    unfold parse_qs
    rw [parse_qsl_urlencode]
    rfl
  rw [show encode_cursor ⟨n, false, none⟩ =
    some ((b64encodeBytes ((urlencodePairs
      [(['o'], pyStrOfNat n)]).map Char.toNat)).map Char.ofNat)
    from by unfold encode_cursor; rw [if_pos hn0]; exact encode_qs _]
  rw [optBindSomeEq]
  exact decode_cursor_eval _ _ (pyStrOfNat n) ['0']
    cutoff (if cutoff ≠ 0 then cutoff else n) 0 false none
    (token_qs _)
    (by unfold qs_offset_raw; rw [hqs]; rfl)
    (by
      rw [positive_int_pyStrOfNat]
      congr 1
      by_cases hc : cutoff = 0
      · rw [if_neg (by omega), if_neg (by omega)]
      · rw [if_pos hc, if_pos hc, Nat.min_eq_right (by omega)])
    (by unfold qs_reverse_raw; rw [hqs]; rfl)
    rfl (by decide)
    (by rw [hqs]; rfl)

theorem decode_cursor_offset_cutoff_witness :
    3 < 5 ∧
    (encode_cursor ⟨5, false, none⟩).bind (fun tok => decode_cursor tok 3) =
      some ⟨if (3 : Nat) ≠ 0 then 3 else 5, false, none⟩ :=
  ⟨by decide, decode_cursor_offset_cutoff 5 3 (by decide)⟩

/-! ## C8: exact decode failure conditions -/

/-- C8 counterexample: the token `b64("r=2")` carries an `r` value that
is neither `0` nor `1`, yet decoding succeeds (reverse is set from
`bool(int("2"))`, i.e. true) instead of failing with InvalidCursor. -/
theorem decode_cursor_accepts_r2 :
    decode_cursor ['c', 'j', '0', 'y'] 1000 = some ⟨0, true, none⟩ := by
  decide

/-- C8 (amended): decoding fails (InvalidCursor) exactly when the token
is not ASCII or not decodable by the lenient `b64decode(validate=False)`
(which tolerates junk characters, stray pads and excess data after a
completed pad group), or its `o` value does not parse (as `int()` does,
Unicode digits included) to a non-negative integer, or its `r` value
does not parse as an integer at all — any integer-valued `r` (not just
0/1) is accepted. -/
theorem decode_cursor_failure_iff (encoded : PyStr) (cutoff : Nat) :
    decode_cursor encoded cutoff = none ↔
      token_querystring encoded = none ∨
      ∃ qs, token_querystring encoded = some qs ∧
        ((qs_offset_raw qs).bind (fun os => _positive_int os cutoff) =
            none ∨
         (qs_reverse_raw qs).bind pyInt = none) := by
  unfold decode_cursor
  cases htok : token_querystring encoded with
  | none =>
    apply iff_of_true
    · rfl
    · exact Or.inl rfl
  | some qs =>
    simp only [bindSomeEq]
    cases hoffr : qs_offset_raw qs with
    | none =>
      apply iff_of_true
      · rfl
      · exact Or.inr ⟨qs, rfl, Or.inl (by rw [hoffr]; rfl)⟩
    | some os =>
      simp only [bindSomeEq]
      cases hpir : _positive_int os cutoff with
      | none =>
        apply iff_of_true
        · rfl
        · exact Or.inr ⟨qs, rfl, Or.inl (by
            rw [hoffr, optBindSomeEq, hpir])⟩
      | some off =>
        simp only [bindSomeEq]
        cases hrevr : qs_reverse_raw qs with
        | none =>
          apply iff_of_true
          · rfl
          · exact Or.inr ⟨qs, rfl, Or.inr (by rw [hrevr]; rfl)⟩
        | some rs =>
          simp only [bindSomeEq]
          cases hri : pyInt rs with
          | none =>
            apply iff_of_true
            · rfl
            · exact Or.inr ⟨qs, rfl, Or.inr (by
                rw [hrevr, optBindSomeEq, hri])⟩
          | some ri =>
            simp only [bindSomeEq]
            apply iff_of_false
            · intro hx
              exact Option.noConfusion hx
            · rintro (hl | ⟨qs', hq, hcase⟩)
              · exact Option.noConfusion hl
              · injection hq with hq'
                subst hq'
                rcases hcase with h1 | h2
                · rw [hoffr, optBindSomeEq, hpir] at h1
                  exact Option.noConfusion h1
                · rw [hrevr, optBindSomeEq, hri] at h2
                  exact Option.noConfusion h2
